import Mathlib

set_option maxRecDepth 40000

/-!
Verification of the markdown-to-HTML converter in `docs/generate-pdf.py`.

The script is a linear pipeline: a mermaid-diagram substitution with a shared
counter, a sequence of regular-expression passes converting markdown to HTML
(`md_to_html`), an HTML wrapper, and a best-effort external PDF rendering call
wrapped in a catch-all.

The embedding below models strings as `List Char` and each `re.sub` pass as an
explicit left-to-right scan with the exact matching semantics of the pattern
used by the source (all the patterns involved are backtracking-free up to small
local case analyses, which are spelled out).  Fuel arguments make every scan
structurally recursive; the fuel passed by the wrappers is always sufficient
because every step consumes at least one character.
-/

namespace GenPdf

/-- Python's whitespace class `\s` over `str`, as used by `re` and by
`str.strip()` with no arguments: the Unicode whitespace characters recognised
by `str.isspace` — the ASCII whitespace and separators U+0009–U+000D and
U+001C–U+0020, NEL U+0085, NBSP U+00A0, OGHAM U+1680, the space range
U+2000–U+200A, the line/paragraph separators U+2028/U+2029, U+202F, U+205F
and U+3000. -/
def pyWs (c : Char) : Bool :=
  (Nat.ble 9 c.toNat && Nat.ble c.toNat 13) ||
  (Nat.ble 28 c.toNat && Nat.ble c.toNat 32) ||
  c.toNat == 133 || c.toNat == 160 || c.toNat == 5760 ||
  (Nat.ble 8192 c.toNat && Nat.ble c.toNat 8202) ||
  c.toNat == 8232 || c.toNat == 8233 ||
  c.toNat == 8239 || c.toNat == 8287 || c.toNat == 12288

/-- The codepoint ranges of the Unicode decimal digits (category Nd): the
characters matched by Python's str-mode `\d`. -/
def ndRanges : List (Nat × Nat) :=
  [(48, 57), (1632, 1641), (1776, 1785), (1984, 1993), (2406, 2415),
   (2534, 2543), (2662, 2671), (2790, 2799), (2918, 2927), (3046, 3055),
   (3174, 3183), (3302, 3311), (3430, 3439), (3558, 3567), (3664, 3673),
   (3792, 3801), (3872, 3881), (4160, 4169), (4240, 4249), (6112, 6121),
   (6160, 6169), (6470, 6479), (6608, 6617), (6784, 6793), (6800, 6809),
   (6992, 7001), (7088, 7097), (7232, 7241), (7248, 7257), (42528, 42537),
   (43216, 43225), (43264, 43273), (43472, 43481), (43504, 43513),
   (43600, 43609), (44016, 44025), (65296, 65305), (66720, 66729),
   (68912, 68921), (69734, 69743), (69872, 69881), (69942, 69951),
   (70096, 70105), (70384, 70393), (70736, 70745), (70864, 70873),
   (71248, 71257), (71360, 71369), (71472, 71481), (71904, 71913),
   (72016, 72025), (72784, 72793), (73040, 73049), (73120, 73129),
   (92768, 92777), (92864, 92873), (93008, 93017), (120782, 120831),
   (123200, 123209), (123632, 123641), (125264, 125273), (130032, 130041)]

/-- Python's digit class `\d` over `str`: the Unicode decimal digits. -/
def pyDigit (c : Char) : Bool :=
  ndRanges.any (fun p => Nat.ble p.1 c.toNat && Nat.ble c.toNat p.2)

/-- Python `str.strip()`: remove leading and trailing whitespace. -/
def pyStrip (s : List Char) : List Char :=
  ((s.dropWhile pyWs).reverse.dropWhile pyWs).reverse

/-- Python `str.split(sep)` for a one-character separator (used with `'\n'` and `'|'`). -/
def splitOnChar (sep : Char) : List Char → List (List Char)
  | [] => [[]]
  | c :: t =>
    if c = sep then [] :: splitOnChar sep t
    else
      match splitOnChar sep t with
      | [] => [[c]]
      | l :: ls => (c :: l) :: ls

/-- Join chunks with a separator (inverse of splitting). -/
def joinSep (sep : List Char) : List (List Char) → List Char
  | [] => []
  | [l] => l
  | l :: ls => l ++ sep ++ joinSep sep ls

/-- Split a list at the first occurrence of `pat`, returning the part before the
occurrence and the part after it; `none` when `pat` does not occur. -/
def splitAtSubstr (pat : List Char) : List Char → Option (List Char × List Char)
  | [] => if pat.isEmpty then some ([], []) else none
  | c :: t =>
    if pat.isPrefixOf (c :: t) then some ([], (c :: t).drop pat.length)
    else
      match splitAtSubstr pat t with
      | some (a, b) => some (c :: a, b)
      | none => none

/-- Python `str.split(sub)` for a multi-character separator (used with `"\n\n"`):
repeated leftmost splitting at non-overlapping occurrences. -/
def splitOnSub (pat : List Char) : Nat → List Char → List (List Char)
  | 0, s => [s]
  | fuel + 1, s =>
    match splitAtSubstr pat s with
    | some (a, b) => a :: splitOnSub pat fuel b
    | none => [s]

/-- Python `str.replace(pat, rep)`: replace every non-overlapping occurrence,
scanning left to right. -/
def replaceAllL (pat rep : List Char) : Nat → List Char → List Char
  | 0, s => s
  | fuel + 1, s =>
    if !pat.isEmpty && pat.isPrefixOf s then
      rep ++ replaceAllL pat rep fuel (s.drop pat.length)
    else
      match s with
      | [] => []
      | c :: t => c :: replaceAllL pat rep fuel t

/-- Python `str.replace` with the fuel supplied (one unit per character suffices). -/
def pyReplace (pat rep s : List Char) : List Char := replaceAllL pat rep s.length s

/-- Substring test (Python `sub in s`). -/
def hasSubstrL (pat : List Char) : List Char → Bool
  | [] => pat.isEmpty
  | c :: t => pat.isPrefixOf (c :: t) || hasSubstrL pat t

/-- Number of non-overlapping occurrences of `pat`, counted left to right
(Python `s.count(pat)` for nonempty `pat`). -/
def countSubL (pat : List Char) : Nat → List Char → Nat
  | 0, _ => 0
  | fuel + 1, s =>
    if !pat.isEmpty && pat.isPrefixOf s then
      countSubL pat fuel (s.drop pat.length) + 1
    else
      match s with
      | [] => 0
      | _ :: t => countSubL pat fuel t

/-- Occurrence count with the standard fuel. -/
def countSub (pat s : List Char) : Nat := countSubL pat s.length s

/-- Generic `re.sub` scan for an unanchored pattern: at each position try the
matcher `tm`, which returns the replacement text and the remainder after the
match; on failure emit one character and advance. -/
def scanP (tm : List Char → Option (List Char × List Char)) : Nat → List Char → List Char
  | 0, s => s
  | fuel + 1, s =>
    match tm s with
    | some (rep, rest) => rep ++ scanP tm fuel rest
    | none =>
      match s with
      | [] => []
      | c :: t => c :: scanP tm fuel t

/-- Generic `re.sub` scan for a `^`-anchored pattern under `re.MULTILINE`: the
matcher is attempted only at the start of the text and right after a newline.
The matchers used with this scan leave the remainder at a line start (their
matches either end with a consumed newline or end the text). -/
def scanA (tm : List Char → Option (List Char × List Char)) : Nat → Bool → List Char → List Char
  | 0, _, s => s
  | fuel + 1, atStart, s =>
    match (if atStart then tm s else none) with
    | some (rep, rest) => rep ++ scanA tm fuel true rest
    | none =>
      match s with
      | [] => []
      | c :: t => c :: scanA tm fuel (c == '\n') t

/-! ### The individual passes of `md_to_html` -/

/-- Pass `^# (.+)$` (MULTILINE): a line starting with `"# "` and at least one
further character becomes `<h1>…</h1>`.  The pattern cannot cross newlines, so
the pass is a per-line map. -/
def h1Line (l : List Char) : List Char :=
  if 2 < l.length ∧ ['#', ' '].isPrefixOf l then
    "<h1>".data ++ l.drop 2 ++ "</h1>".data
  else l

/-- Pass `^## (.+)$` (MULTILINE). -/
def h2Line (l : List Char) : List Char :=
  if 3 < l.length ∧ ['#', '#', ' '].isPrefixOf l then
    "<h2>".data ++ l.drop 3 ++ "</h2>".data
  else l

/-- Pass `^### (.+)$` (MULTILINE). -/
def h3Line (l : List Char) : List Char :=
  if 4 < l.length ∧ ['#', '#', '#', ' '].isPrefixOf l then
    "<h3>".data ++ l.drop 4 ++ "</h3>".data
  else l

/-- Pass `^---+$` (MULTILINE): a line of three or more hyphens becomes `<hr>`. -/
def hrLine (l : List Char) : List Char :=
  if 3 ≤ l.length ∧ l.all (· = '-') then "<hr>".data else l

/-- Apply a per-line rewrite to every line (the lines of a MULTILINE-anchored,
newline-free pattern are independent). -/
def lineMapPass (f : List Char → List Char) (s : List Char) : List Char :=
  joinSep ['\n'] ((splitOnChar '\n' s).map f)

/-- The replacement text of `text.replace('</h1>\n\n', …)`: the closing tag
followed by the hardcoded metadata line and abstract block. -/
def metaBlock : List Char :=
  ("</h1>\n<div class=\"meta\">January 2026</div>\n<div class=\"abstract\">\n<div class=\"abstract-title\">Abstract</div>\nThis document examines how the wrapper around a language model affects clinical documentation output. We processed the same psychiatric case through ChatGPT and through Psych Intake Brief. Both use GPT-5.2. The difference is in how the interaction gets structured.\n</div>\n").data

/-- The backquote character (code 96). -/
def backquote : Char := Char.ofNat 96

/-- Three backquotes, the fence delimiter. -/
def ticks : List Char := [backquote, backquote, backquote]

/-- Python `\w` over ASCII: letters, digits, underscore. -/
def isWordChar (c : Char) : Bool := c.isAlphanum || c = '_'

/-- The two `str.replace` calls of `format_code_block`: escape both angle
brackets. -/
def escapeAngle (code : List Char) : List Char :=
  pyReplace ['>'] "&gt;".data (pyReplace ['<'] "&lt;".data code)

/-- Character-wise escaping, following the spec's words: every angle bracket
`<` and `>` is replaced by its character entity, all other characters are kept.
Used to compare the source's two sequential `str.replace` calls against the
spec's description. -/
def escapeSpec (c : Char) : List Char :=
  if c = '<' then "&lt;".data else if c = '>' then "&gt;".data else [c]

/-- `format_code_block`: wrap the escaped content in `<pre><code>…</code></pre>`. -/
def format_code_block (code : List Char) : List Char :=
  "<pre><code>".data ++ escapeAngle code ++ "</code></pre>".data

/-- Matcher for the fenced-code pattern at the current position:
three backquotes, a maximal run of word characters (`\w*` followed by a literal
newline cannot backtrack), a newline, then the non-greedy `([\s\S]*?)` up to the
first closing triple backquote. -/
def tryCodeBlock (s : List Char) : Option (List Char × List Char) :=
  if ticks.isPrefixOf s then
    match (s.drop 3).dropWhile isWordChar with
    | '\n' :: body =>
      match splitAtSubstr ticks body with
      | some (content, rest) => some (format_code_block content, rest)
      | none => none
    | _ => none
  else none

/-- Matcher for inline code: a backquote, one or more non-backquote characters
(greedy run, then the closing backquote is forced), a backquote. -/
def tryInlineCode (s : List Char) : Option (List Char × List Char) :=
  match s with
  | c :: t =>
    if c = backquote then
      match t.takeWhile (· ≠ backquote), t.dropWhile (· ≠ backquote) with
      | content@(_ :: _), _ :: rest =>
        some ("<code>".data ++ content ++ "</code>".data, rest)
      | _, _ => none
    else none
  | [] => none

/-- Matcher for bold: two asterisks, one or more non-asterisk characters, two
asterisks.  The content class `[^*]+` excludes asterisks, so the maximal run is
forced and no backtracking can succeed. -/
def tryBold (s : List Char) : Option (List Char × List Char) :=
  match s with
  | '*' :: '*' :: t =>
    match t.takeWhile (· ≠ '*'), t.dropWhile (· ≠ '*') with
    | content@(_ :: _), _ :: y :: rest =>
      if y = '*' then some ("<strong>".data ++ content ++ "</strong>".data, rest)
      else none
    | _, _ => none
  | _ => none

/-- Matcher for italic: one asterisk, one or more non-asterisk characters, one
asterisk. -/
def tryItalic (s : List Char) : Option (List Char × List Char) :=
  match s with
  | '*' :: t =>
    match t.takeWhile (· ≠ '*'), t.dropWhile (· ≠ '*') with
    | content@(_ :: _), _ :: rest =>
      some ("<em>".data ++ content ++ "</em>".data, rest)
    | _, _ => none
  | _ => none

/-- Matcher for images `!\[([^\]]*)\]\(([^)]+)\)`. -/
def tryImage (s : List Char) : Option (List Char × List Char) :=
  match s with
  | '!' :: '[' :: t =>
    let alt := t.takeWhile (· ≠ ']')
    match t.dropWhile (· ≠ ']') with
    | ']' :: '(' :: r =>
      match r.takeWhile (· ≠ ')'), r.dropWhile (· ≠ ')') with
      | path@(_ :: _), ')' :: rest =>
        some ("<figure><img src=\"".data ++ path ++ "\" alt=\"".data ++ alt ++
              "\"><figcaption>".data ++ alt ++ "</figcaption></figure>".data, rest)
      | _, _ => none
    | _ => none
  | _ => none

/-- Matcher for one table line `\|.+\|[\n]`: starting at a pipe, the rest of
the current line must end with a pipe (the trailing `[\n]` forces the final
`\|` of the pattern onto the last character before the newline), have length at
least three, and be followed by a newline. -/
def tryTableLine (s : List Char) : Option (List Char × List Char) :=
  match s with
  | '|' :: _ =>
    let line := s.takeWhile (· ≠ '\n')
    match s.dropWhile (· ≠ '\n') with
    | '\n' :: r =>
      if 3 ≤ line.length ∧ line.getLast? = some '|' then some (line ++ ['\n'], r)
      else none
    | _ => none
  | _ => none

/-- Greedy repetition `(unit)+` of a unit matcher: one or more consecutive
units, as many as possible, concatenating the matched text. -/
def collectUnits (tryOne : List Char → Option (List Char × List Char)) :
    Nat → List Char → Option (List Char × List Char)
  | 0, _ => none
  | fuel + 1, s =>
    match tryOne s with
    | none => none
    | some (m, r) =>
      match collectUnits tryOne fuel r with
      | some (m2, r2) => some (m ++ m2, r2)
      | none => some (m, r)

/-- One `<tr>` row of `format_table`. -/
def tableRow (tag : List Char) (cells : List (List Char)) : List Char :=
  "<tr>".data ++
    (cells.map (fun c => '<' :: tag ++ '>' :: c ++ '<' :: '/' :: tag ++ ['>'])).flatten ++
    "</tr>\n".data

/-- The cell texts of one table line: split on pipes, discard the first and
last (boundary) fields, strip each cell. -/
def tableCells (line : List Char) : List (List Char) :=
  (((splitOnChar '|' line).drop 1).dropLast).map pyStrip

/-- `format_table`: strip the matched block, split into lines, drop every line
containing `---` anywhere, make row 0 header cells and all other rows data
cells (the index counts dropped lines too). -/
def format_table (block : List Char) : List Char :=
  let ls := splitOnChar '\n' (pyStrip block)
  "<table>\n".data ++
    (ls.enum.map (fun p =>
      if hasSubstrL "---".data p.2 then []
      else tableRow (if p.1 = 0 then "th".data else "td".data) (tableCells p.2))).flatten ++
    "</table>".data

/-- Matcher for the whole table pattern `(\|.+\|[\n])+` at the current
position. -/
def tryTable (s : List Char) : Option (List Char × List Char) :=
  match collectUnits tryTableLine s.length s with
  | some (m, r) => some (format_table m, r)
  | none => none

/-- Shared tail of one list-item unit after the marker: `\s+.+[\n]?`.
`\s+` takes the maximal whitespace run (which may cross newlines); `.+` then
takes the rest of the line; `[\n]?` consumes a following newline when present.
When the whitespace run reaches the end of the text, `\s+` backtracks until
`.+` can take one non-newline character — the last non-newline of the run,
which must not be the run's first character — and `[\n]?` then takes the
newline after it when there is one, leaving any further newlines unmatched. -/
def tryItemTail (pre : List Char) (r : List Char) : Option (List Char × List Char) :=
  let ws2 := r.takeWhile pyWs
  if ws2.isEmpty then none
  else
    match r.dropWhile pyWs with
    | [] =>
      let k := (ws2.reverse.takeWhile (· == '\n')).length
      if 2 ≤ ws2.length - k then
        if k == 0 then some (pre ++ ws2, [])
        else some (pre ++ ws2.take (ws2.length - k + 1), ws2.drop (ws2.length - k + 1))
      else none
    | r2 =>
      let content := r2.takeWhile (· ≠ '\n')
      match r2.dropWhile (· ≠ '\n') with
      | '\n' :: rest => some (pre ++ ws2 ++ content ++ ['\n'], rest)
      | _ => some (pre ++ ws2 ++ content, [])

/-- Matcher for one unordered-list unit `^[\s]*[-*]\s+.+[\n]?` at a line
start: leading whitespace (possibly crossing newlines), a marker, then the
shared tail. -/
def tryUlItem (s : List Char) : Option (List Char × List Char) :=
  let ws1 := s.takeWhile pyWs
  match s.dropWhile pyWs with
  | m :: r =>
    if m = '-' ∨ m = '*' then tryItemTail (ws1 ++ [m]) r else none
  | [] => none

/-- Matcher for one ordered-list unit `^[\s]*\d+\.\s+.+[\n]?` at a line
start. -/
def tryOlItem (s : List Char) : Option (List Char × List Char) :=
  let ws1 := s.takeWhile pyWs
  let r0 := s.dropWhile pyWs
  match r0.takeWhile pyDigit, r0.dropWhile pyDigit with
  | ds@(_ :: _), '.' :: r => tryItemTail (ws1 ++ ds ++ ['.']) r
  | _, _ => none

/-- The item rewrite `re.sub(r'^[\s]*[-*]\s*', '', item)` of `format_list`. -/
def stripUlMarker (item : List Char) : List Char :=
  match item.dropWhile pyWs with
  | m :: r => if m = '-' ∨ m = '*' then r.dropWhile pyWs else item
  | [] => item

/-- The item rewrite `re.sub(r'^[\s]*\d+\.\s*', '', item)` of `format_ol`. -/
def stripOlMarker (item : List Char) : List Char :=
  let r := item.dropWhile pyWs
  match r.takeWhile pyDigit, r.dropWhile pyDigit with
  | _ :: _, '.' :: r2 => r2.dropWhile pyWs
  | _, _ => item

/-- Common body of `format_list` and `format_ol`: strip the block, split into
lines, strip each item's marker, wrap in `<li>` items. -/
def format_items (openTag closeTag : List Char) (stripMarker : List Char → List Char)
    (block : List Char) : List Char :=
  let items := splitOnChar '\n' (pyStrip block)
  openTag ++
    (items.map (fun it => "<li>".data ++ stripMarker it ++ "</li>\n".data)).flatten ++
    closeTag

/-- `format_list` of the source. -/
def format_list (block : List Char) : List Char :=
  format_items "<ul>\n".data "</ul>".data stripUlMarker block

/-- `format_ol` of the source. -/
def format_ol (block : List Char) : List Char :=
  format_items "<ol>\n".data "</ol>".data stripOlMarker block

/-- Matcher for the whole unordered-list pattern `(^[\s]*[-*]\s+.+[\n]?)+`. -/
def tryUlBlock (s : List Char) : Option (List Char × List Char) :=
  match collectUnits tryUlItem s.length s with
  | some (m, r) => some (format_list m, r)
  | none => none

/-- Matcher for the whole ordered-list pattern `(^[\s]*\d+\.\s+.+[\n]?)+`. -/
def tryOlBlock (s : List Char) : Option (List Char × List Char) :=
  match collectUnits tryOlItem s.length s with
  | some (m, r) => some (format_ol m, r)
  | none => none

/-- Paragraph pass body for one chunk: strip it; when the stripped text is
nonempty and does not start with `<`, wrap the *stripped* text in `<p>…</p>`;
otherwise keep the original chunk. -/
def wrapChunk (p : List Char) : List Char :=
  let t := pyStrip p
  if t ≠ [] ∧ t.head? ≠ some '<' then "<p>".data ++ t ++ "</p>".data else p

/-- The paragraph pass: split on blank lines (`"\n\n"`), wrap each chunk, and
rejoin with `"\n\n"`. -/
def paragraphPass (s : List Char) : List Char :=
  joinSep "\n\n".data ((splitOnSub "\n\n".data s.length s).map wrapChunk)

/-- Matcher for the cleanup pattern `<p>\s*</p>` (deleted). -/
def tryEmptyP (s : List Char) : Option (List Char × List Char) :=
  if "<p>".data.isPrefixOf s then
    let r2 := (s.drop 3).dropWhile pyWs
    if "</p>".data.isPrefixOf r2 then some ([], r2.drop 4) else none
  else none

/-- First alternative of an ordered alternation that is a prefix of `s`. -/
def firstPrefixOf (alts : List (List Char)) (s : List Char) : Option (List Char × List Char) :=
  match alts with
  | [] => none
  | a :: rest => if a.isPrefixOf s then some (a, s.drop a.length) else firstPrefixOf rest s

/-- The block-opener alternation `<h\d|<hr|<figure|<table|<ul|<ol|<pre`. -/
def openerAt (s : List Char) : Option (List Char × List Char) :=
  match s with
  | '<' :: 'h' :: c :: r =>
    if pyDigit c then some (['<', 'h', c], r)
    else if c = 'r' then some ("<hr".data, r)
    else none
  | _ =>
    firstPrefixOf ["<figure".data, "<table".data, "<ul".data, "<ol".data, "<pre".data] s

/-- Matcher for the cleanup pattern `<p>\s*(<h\d|<hr|<figure|<table|<ul|<ol|<pre)`,
replaced by the captured opener. -/
def tryPOpenBefore (s : List Char) : Option (List Char × List Char) :=
  if "<p>".data.isPrefixOf s then
    let r2 := (s.drop 3).dropWhile pyWs
    match openerAt r2 with
    | some (a, rest) => some (a, rest)
    | none => none
  else none

/-- The block-closer alternation `</h\d>|</table>|</ul>|</ol>|</pre>|</figure>`. -/
def closerAt (s : List Char) : Option (List Char × List Char) :=
  match s with
  | '<' :: '/' :: 'h' :: c :: '>' :: r =>
    if pyDigit c then some (['<', '/', 'h', c, '>'], r)
    else none
  | _ =>
    firstPrefixOf ["</table>".data, "</ul>".data, "</ol>".data, "</pre>".data, "</figure>".data] s

/-- Matcher for the cleanup pattern `(closer)\s*</p>`, replaced by the captured
closer. -/
def tryCloseP (s : List Char) : Option (List Char × List Char) :=
  match closerAt s with
  | some (a, r) =>
    let r2 := r.dropWhile pyWs
    if "</p>".data.isPrefixOf r2 then some (a, r2.drop 4) else none
  | none => none

/-- `md_to_html` of the source: the fixed sequence of passes on the document
buffer. -/
def md_to_htmlL (text : List Char) : List Char :=
  let t1 := lineMapPass h1Line text
  let t2 := pyReplace "</h1>\n\n".data metaBlock t1
  let t3 := lineMapPass h2Line t2
  let t4 := lineMapPass h3Line t3
  let t5 := lineMapPass hrLine t4
  let t6 := scanP tryCodeBlock t5.length t5
  let t7 := scanP tryInlineCode t6.length t6
  let t8 := scanP tryBold t7.length t7
  let t9 := scanP tryItalic t8.length t8
  let t10 := scanP tryImage t9.length t9
  let t11 := scanP tryTable t10.length t10
  let t12 := scanA tryUlBlock t11.length true t11
  let t13 := scanA tryOlBlock t12.length true t12
  let t14 := paragraphPass t13
  let t15 := pyReplace "\n</p>".data "</p>".data t14
  let t16 := scanP tryEmptyP t15.length t15
  let t17 := scanP tryPOpenBefore t16.length t16
  scanP tryCloseP t17.length t17

/-- String-level `md_to_html`. -/
def md_to_html (s : String) : String := String.mk (md_to_htmlL s.data)

/-! ### The mermaid pass and the top-level script -/

/-- The opening delimiter of a mermaid block. -/
def mermaidHeader : List Char := ticks ++ "mermaid\n".data

/-- The text `replace_mermaid` produces when the counter (after its increment)
is `n`. -/
def replace_mermaid (n : Nat) : List Char :=
  "<figure>\n<img src=\"diagrams/diagram".data ++ (Nat.repr n).data ++
    ".png\" alt=\"Diagram ".data ++ (Nat.repr n).data ++
    "\">\n<figcaption>Figure ".data ++ (Nat.repr n).data ++
    "</figcaption>\n</figure>".data

/-- The mermaid substitution scan: `re.sub(r'```mermaid\n[\s\S]*?```', …)`
threaded with the shared counter.  The non-greedy body ends at the first
closing triple backquote; when the header matches but no closing fence exists
the position is not a match and the scan advances one character. -/
def mermaidSub : Nat → Nat → List Char → List Char × Nat
  | 0, n, s => (s, n)
  | fuel + 1, n, s =>
    if mermaidHeader.isPrefixOf s then
      match splitAtSubstr ticks (s.drop mermaidHeader.length) with
      | some (_, rest) =>
        let r := mermaidSub fuel (n + 1) rest
        (replace_mermaid (n + 1) ++ r.1, r.2)
      | none =>
        match s with
        | [] => ([], n)
        | c :: t => let r := mermaidSub fuel n t; (c :: r.1, r.2)
    else
      match s with
      | [] => ([], n)
      | c :: t => let r := mermaidSub fuel n t; (c :: r.1, r.2)

/-- String-level mermaid pass: the document and the value of the shared
`diagram_count` before the call, returning the rewritten document and the
counter after the call. -/
def mermaidPass (s : String) (n : Nat) : String × Nat :=
  let r := mermaidSub s.data.length n s.data
  (String.mk r.1, r.2)

/-- Observable outcome of one run of the script: files written (path and
content, in order), lines printed, and the process exit code. -/
structure ScriptResult where
  filesWritten : List (String × String)
  printed : List String
  exitCode : Nat
deriving Repr, DecidableEq

/-- The fixed HTML document wrapper. -/
def htmlDocWrap (content : String) : String :=
  "<!DOCTYPE html>\n<html lang=\"en\">\n<head>\n    <meta charset=\"UTF-8\">\n    <title>Structured Harnesses for Clinical AI</title>\n    <link rel=\"stylesheet\" href=\"academic-style.css\">\n</head>\n<body>\n"
    ++ content ++ "\n</body>\n</html>"

/-- The top-level script: read markdown (abstracted as the argument), run the
mermaid pass with the counter starting at 0, convert, write the HTML file,
print the HTML message, then attempt the external PDF render.  The render call
is abstracted as an `Except` value: `ok sizeStr` is a successful render
reporting the formatted size, `error e` is any raised exception with message
`e`.  The catch-all converts an exception into one printed diagnostic; both
branches fall through to a normal exit (code 0). -/
def runScript (mdContent : String) (render : Except String String) : ScriptResult :=
  let md2 := (mermaidPass mdContent 0).1
  let htmlContent := md_to_html md2
  let doc := htmlDocWrap htmlContent
  let afterHtml : ScriptResult :=
    { filesWritten := [("academic-output.html", doc)]
      printed := ["HTML generated: academic-output.html"]
      exitCode := 0 }
  match render with
  | Except.ok sizeStr =>
    { afterHtml with
        filesWritten := afterHtml.filesWritten ++
          [("Psych_Intake_Brief_Technical_Documentation.pdf", "")]
        printed := afterHtml.printed ++
          ["PDF generated: Psych_Intake_Brief_Technical_Documentation.pdf",
           "Size: " ++ sizeStr ++ " KB"] }
  | Except.error e =>
    { afterHtml with printed := afterHtml.printed ++ ["PDF generation error: " ++ e] }

/-! ### Predicates used to state the universally-quantified claims -/

/-- One step of the decidable formalization of "contains no markdown syntax",
looking at the current character and a bounded lookahead.  The conditions
exclude exactly the characters and local patterns on which some conversion
pass can fire: `#` (headings), the backquote (fences, inline code), `*`
(emphasis, list marker), `|` (tables), `<` (raw markup: the injection trigger,
the paragraph-pass skip and the cleanup patterns), the pair `![` (images), a
`-` followed by whitespace (list item) or by another `-` (rules), and a digit
followed by `.` and whitespace (ordered lists). -/
def noMdStep (c : Char) (t : List Char) : Bool :=
  !(c == '#') && !(c == backquote) && !(c == '*') && !(c == '|') && !(c == '<') &&
  (!(c == '!') || !(t.head? == some '[')) &&
  (!(c == '-') || (match t.head? with
                   | some d => !pyWs d && !(d == '-')
                   | none => true)) &&
  (!(pyDigit c) || (match t with
                    | '.' :: d :: _ => !pyWs d
                    | _ => true))

/-- A string contains no markdown syntax: `noMdStep` holds at every suffix. -/
def noMd : List Char → Bool
  | [] => true
  | c :: t => noMdStep c t && noMd t

/-- What may follow a `<` in well-formed paragraph-pass output: either the
rest of an opening `<p>` wrapper followed by a non-whitespace, non-`<`
character, or the rest of a closing `</p>` wrapper. -/
def afterLt (t : List Char) : Bool :=
  match t with
  | 'p' :: '>' :: c :: _ => !pyWs c && !(c == '<')
  | '/' :: 'p' :: '>' :: _ => true
  | _ => false

/-- Well-formedness of paragraph-pass output, strong enough to make every
cleanup substitution a no-op: every `<` continues as in `afterLt`, and no
newline is immediately followed by a paragraph close tag. -/
def goodSuffix : List Char → Bool
  | [] => true
  | c :: t =>
    (if c = '<' then afterLt t else true) &&
    (if c = '\n' then !("</p>".data.isPrefixOf t) else true) &&
    goodSuffix t

/-! ### Generic lemmas about the scanning combinators -/

theorem isPrefixOf_append_self (x y : List Char) : x.isPrefixOf (x ++ y) = true :=
  List.isPrefixOf_iff_prefix.mpr (List.prefix_append x y)

theorem isPrefixOf_head_ne {c d : Char} (p t : List Char) (h : d ≠ c) :
    (c :: p).isPrefixOf (d :: t) = false := by
  simp only [List.isPrefixOf]
  simp only [Bool.and_eq_false_iff]
  left
  exact beq_eq_false_iff_ne.mpr (fun e => h e.symm)

theorem isPrefixOf_nil_eq (c : Char) (t : List Char) :
    (c :: t).isPrefixOf ([] : List Char) = false := rfl

theorem splitAtSubstr_some {pat : List Char} : ∀ {s a b : List Char},
    splitAtSubstr pat s = some (a, b) → s = a ++ pat ++ b := by
  intro s
  induction s with
  | nil =>
    intro a b h
    simp only [splitAtSubstr] at h
    split at h
    · next hp =>
      simp only [Option.some.injEq, Prod.mk.injEq] at h
      obtain ⟨ha, hb⟩ := h
      simp [← ha, ← hb, List.isEmpty_iff.mp hp]
    · exact absurd h (by simp)
  | cons c t ih =>
    intro a b h
    simp only [splitAtSubstr] at h
    split at h
    · next hp =>
      simp only [Option.some.injEq, Prod.mk.injEq] at h
      obtain ⟨ha, hb⟩ := h
      obtain ⟨r, hr⟩ := List.isPrefixOf_iff_prefix.mp hp
      rw [← ha, ← hb, ← hr]
      simp [List.drop_left]
    · next hp =>
      cases hsp : splitAtSubstr pat t with
      | none => rw [hsp] at h; exact absurd h (by simp)
      | some ab =>
        obtain ⟨a', b'⟩ := ab
        rw [hsp] at h
        simp only [Option.some.injEq, Prod.mk.injEq] at h
        obtain ⟨ha, hb⟩ := h
        have := ih hsp
        rw [← ha, ← hb, this]
        simp

theorem splitAtSubstr_boundary {x : Char} {patTail : List Char} :
    ∀ {body rest : List Char}, (∀ c ∈ body, c ≠ x) →
    splitAtSubstr (x :: patTail) (body ++ ((x :: patTail) ++ rest)) = some (body, rest) := by
  intro body
  induction body with
  | nil =>
    intro rest _
    have h1 : (x :: patTail).isPrefixOf (x :: (patTail ++ rest)) = true := by
      rw [← List.cons_append]
      exact isPrefixOf_append_self _ _
    have h2 : List.drop (x :: patTail).length (x :: (patTail ++ rest)) = rest := by
      rw [← List.cons_append]
      exact List.drop_left _ _
    simp only [List.nil_append, List.cons_append, splitAtSubstr, List.append_eq]
    rw [if_pos h1, h2]
  | cons c body' ih =>
    intro rest h
    have hc : c ≠ x := h c (by simp)
    have hpre : (x :: patTail).isPrefixOf (c :: (body' ++ x :: (patTail ++ rest))) = false :=
      isPrefixOf_head_ne _ _ hc
    have ih' := @ih rest (fun d hd => h d (by simp [hd]))
    simp only [List.cons_append] at ih'
    simp only [List.cons_append, splitAtSubstr, List.append_eq]
    rw [if_neg (by rw [hpre]; simp), ih']

theorem hasSubstrL_false {x : Char} {p : List Char} : ∀ {s : List Char},
    (∀ c ∈ s, c ≠ x) → hasSubstrL (x :: p) s = false := by
  intro s
  induction s with
  | nil => intro _; rfl
  | cons c t ih =>
    intro h
    simp only [hasSubstrL, Bool.or_eq_false_iff]
    constructor
    · exact isPrefixOf_head_ne _ _ (h c (by simp))
    · exact ih (fun d hd => h d (by simp [hd]))

theorem replaceAllL_id {pat rep : List Char} : ∀ (fuel : Nat) {s : List Char},
    hasSubstrL pat s = false → replaceAllL pat rep fuel s = s := by
  intro fuel
  induction fuel with
  | zero => intro s _; rfl
  | succ f ih =>
    intro s h
    cases s with
    | nil =>
      simp only [hasSubstrL] at h
      cases pat with
      | nil => simp at h
      | cons p ps => simp [replaceAllL]
    | cons c t =>
      simp only [hasSubstrL, Bool.or_eq_false_iff] at h
      obtain ⟨h1, h2⟩ := h
      simp [replaceAllL, h1, ih h2]

theorem scanP_id (tm : List Char → Option (List Char × List Char)) :
    ∀ (fuel : Nat) (s : List Char),
    (∀ t, t <:+ s → tm t = none) → scanP tm fuel s = s := by
  intro fuel
  induction fuel with
  | zero => intro s _; rfl
  | succ f ih =>
    intro s h
    have h0 : tm s = none := h s (List.suffix_refl s)
    cases s with
    | nil => simp [scanP, h0]
    | cons c t =>
      simp only [scanP, h0]
      rw [ih t (fun u hu => h u (hu.trans (List.suffix_cons c t)))]

theorem scanA_id (tm : List Char → Option (List Char × List Char)) :
    ∀ (fuel : Nat) (b : Bool) (s : List Char),
    (∀ t, t <:+ s → tm t = none) → scanA tm fuel b s = s := by
  intro fuel
  induction fuel with
  | zero => intro s _ _; rfl
  | succ f ih =>
    intro b s h
    have h0 : tm s = none := h s (List.suffix_refl s)
    have hb : (if b then tm s else none) = none := by cases b <;> simp [h0]
    cases s with
    | nil => simp [scanA, hb]
    | cons c t =>
      simp only [scanA, hb]
      rw [ih _ t (fun u hu => h u (hu.trans (List.suffix_cons c t)))]

theorem scanP_skip (tm : List Char → Option (List Char × List Char)) :
    ∀ (pre : List Char) (k : Nat) (s : List Char),
    (∀ t, t <:+ pre → t ≠ [] → tm (t ++ s) = none) →
    scanP tm (pre.length + k) (pre ++ s) = pre ++ scanP tm k s := by
  intro pre
  induction pre with
  | nil => intro k s _; simp
  | cons c p ih =>
    intro k s h
    have h0 : tm ((c :: p) ++ s) = none := h (c :: p) (List.suffix_refl _) (by simp)
    have harith : (c :: p).length + k = (p.length + k) + 1 := by
      simp [List.length_cons]; omega
    rw [harith]
    simp only [List.cons_append] at h0 ⊢
    simp only [scanP, h0]
    rw [ih k s (fun u hu hne => h u (hu.trans (List.suffix_cons c p)) hne)]

/-! ### Lemmas about the mermaid pass -/

theorem mermaidSub_nil : ∀ (fuel n : Nat), mermaidSub fuel n [] = ([], n) := by
  intro fuel n
  cases fuel with
  | zero => rfl
  | succ f => rfl

theorem mermaidSub_skip : ∀ (pre : List Char) (k n : Nat) (s : List Char),
    (∀ c ∈ pre, c ≠ backquote) →
    mermaidSub (pre.length + k) n (pre ++ s) =
      (pre ++ (mermaidSub k n s).1, (mermaidSub k n s).2) := by
  intro pre
  induction pre with
  | nil => intro k n s _; simp
  | cons c p ih =>
    intro k n s h
    have hc : c ≠ backquote := h c (by simp)
    have hpre : mermaidHeader.isPrefixOf (c :: (p ++ s)) = false := by
      rw [show mermaidHeader = backquote :: ([backquote, backquote] ++ "mermaid\n".data) from rfl]
      exact isPrefixOf_head_ne _ _ hc
    have harith : (c :: p).length + k = (p.length + k) + 1 := by
      simp only [List.length_cons]; omega
    rw [harith]
    have hstep : mermaidSub ((p.length + k) + 1) n (c :: (p ++ s)) =
        (c :: (mermaidSub (p.length + k) n (p ++ s)).1,
         (mermaidSub (p.length + k) n (p ++ s)).2) := by
      simp only [mermaidSub, hpre]
      rw [if_neg Bool.false_ne_true]
    simp only [List.cons_append]
    rw [hstep, ih k n s (fun d hd => h d (by simp [hd]))]

theorem mermaidSub_match (body rest : List Char) (k n : Nat)
    (h : ∀ c ∈ body, c ≠ backquote) :
    mermaidSub (k + 1) n (mermaidHeader ++ (body ++ (ticks ++ rest))) =
      (replace_mermaid (n + 1) ++ (mermaidSub k (n + 1) rest).1,
       (mermaidSub k (n + 1) rest).2) := by
  have hpre : mermaidHeader.isPrefixOf (mermaidHeader ++ (body ++ (ticks ++ rest))) = true :=
    isPrefixOf_append_self _ _
  have hdrop : (mermaidHeader ++ (body ++ (ticks ++ rest))).drop mermaidHeader.length =
      body ++ (ticks ++ rest) := List.drop_left _ _
  have hsplit : splitAtSubstr ticks (body ++ (ticks ++ rest)) = some (body, rest) :=
    splitAtSubstr_boundary h
  simp only [mermaidSub, hpre, hdrop, hsplit]
  simp

/-! ### Claim C2: mermaid figure numbering -/

/-- C2 auxiliary: the scan over a document containing exactly two mermaid
blocks, starting from any counter value `c`: the plain segments pass through,
the first block becomes the figure numbered `c + 1`, the second the figure
numbered `c + 2`, and the counter comes back as `c + 2` — one increment per
matched block.  The fuel is any value of the shape consumed by the scan. -/
theorem C2_chain (pre b1 mid b2 post : List Char) (c k : Nat)
    (hpre : ∀ x ∈ pre, x ≠ backquote) (hb1 : ∀ x ∈ b1, x ≠ backquote)
    (hmid : ∀ x ∈ mid, x ≠ backquote) (hb2 : ∀ x ∈ b2, x ≠ backquote)
    (hpost : ∀ x ∈ post, x ≠ backquote) :
    mermaidSub (pre.length + ((mid.length + ((post.length + k) + 1)) + 1)) c
      (pre ++ (mermaidHeader ++ (b1 ++ (ticks ++ (mid ++ (mermaidHeader ++ (b2 ++ (ticks ++ post)))))))) =
      (pre ++ (replace_mermaid (c + 1) ++ (mid ++ (replace_mermaid (c + 2) ++ post))), c + 2) := by
  have hlast : mermaidSub (post.length + k) (c + 2) post = (post, c + 2) := by
    have hs := mermaidSub_skip post k (c + 2) [] hpost
    simp only [List.append_nil, mermaidSub_nil] at hs
    simpa using hs
  rw [mermaidSub_skip pre _ c _ hpre]
  rw [mermaidSub_match b1 _ _ c hb1]
  rw [mermaidSub_skip mid _ (c + 1) _ hmid]
  rw [mermaidSub_match b2 post _ (c + 1) hb2]
  rw [show c + 1 + 1 = c + 2 from rfl]
  rw [hlast]

/-- C2: for a document consisting of two fenced mermaid blocks separated by
backquote-free text, the mermaid pass replaces the first block (in document
order) by the figure fragment numbered `c + 1` and the second by the fragment
numbered `c + 2`, where `c` is the value of the shared counter before the
call; the counter is incremented exactly once per matched block and is
returned as `c + 2`.  Since `c` is arbitrary, numbering continues across
conversions within one run and starts at 1 only when a fresh run starts with
the counter at 0. -/
theorem C2_theorem (pre b1 mid b2 post : List Char) (c : Nat)
    (hpre : ∀ x ∈ pre, x ≠ backquote) (hb1 : ∀ x ∈ b1, x ≠ backquote)
    (hmid : ∀ x ∈ mid, x ≠ backquote) (hb2 : ∀ x ∈ b2, x ≠ backquote)
    (hpost : ∀ x ∈ post, x ≠ backquote) :
    mermaidPass (String.mk
        (pre ++ (mermaidHeader ++ (b1 ++ (ticks ++ (mid ++ (mermaidHeader ++ (b2 ++ (ticks ++ post))))))))) c =
      (String.mk (pre ++ (replace_mermaid (c + 1) ++ (mid ++ (replace_mermaid (c + 2) ++ post)))),
       c + 2) := by
  have hlen : (pre ++ (mermaidHeader ++ (b1 ++ (ticks ++ (mid ++ (mermaidHeader ++
      (b2 ++ (ticks ++ post)))))))).length =
      pre.length + ((mid.length + ((post.length + (b1.length + b2.length + 26)) + 1)) + 1) := by
    have hh : mermaidHeader.length = 11 := rfl
    have ht : ticks.length = 3 := rfl
    simp only [List.length_append, hh, ht]
    omega
  show (String.mk (mermaidSub _ c _).1, (mermaidSub _ c _).2) = _
  rw [hlen, C2_chain pre b1 mid b2 post c _ hpre hb1 hmid hb2 hpost]

/-- C2 witness: the two-block theorem applied at a concrete document with the
counter starting at 0: the blocks become figures 1 and 2 and the counter ends
at 2. -/
theorem C2_witness :
    mermaidPass (String.mk
        ("a\n".data ++ (mermaidHeader ++ ("graph\n".data ++ (ticks ++ ("\nb\n".data ++
          (mermaidHeader ++ ("flow\n".data ++ (ticks ++ "\nc".data))))))))) 0 =
      (String.mk ("a\n".data ++ (replace_mermaid 1 ++ ("\nb\n".data ++ (replace_mermaid 2 ++
        "\nc".data)))), 2) :=
  C2_theorem "a\n".data "graph\n".data "\nb\n".data "flow\n".data "\nc".data 0
    (by decide) (by decide) (by decide) (by decide) (by decide)

/-! ### Claim C1: bold/italic interaction on nested emphasis -/

/-- C1 counterexample: the claim says the converter turns
`**bold *and italic* text**` into a strong element containing a nested
emphasis element.  In fact the bold pattern `\*\*([^*]+)\*\*` cannot match
because its content class excludes asterisks, so the output contains no
strong element at all. -/
theorem C1_counterexample :
    hasSubstrL "<strong".data (md_to_htmlL "**bold *and italic* text**".data) = false := by
  decide

/-- C1 amended: on the input `**bold *and italic* text**` the bold pass does
not fire (its content class `[^*]+` excludes the inner asterisks); the italic
pass then matches `*bold *` and `* text*`, and the converter produces
`<p>*<em>bold </em>and italic<em> text</em>*</p>`, with no strong element. -/
theorem C1_amended :
    md_to_html "**bold *and italic* text**" =
      "<p>*<em>bold </em>and italic<em> text</em>*</p>" := by
  decide

/-! ### Claim C3: title pass and metadata/abstract injection -/

/-- C3 counterexample: the claim says only the first level-1 heading becomes a
heading element with the metadata/abstract block injected after it.  In fact
the `^# (.+)$` pass rewrites every such line and `str.replace` injects the
block after *every* `</h1>` that is followed by a blank line: with two
headings, the output contains two `<h1>` elements and two metadata lines. -/
theorem C3_counterexample :
    countSub "<h1>".data (md_to_htmlL "# A\n\nx\n\n# B\n\ny".data) = 2 ∧
    countSub "<div class=\"meta\">".data (md_to_htmlL "# A\n\nx\n\n# B\n\ny".data) = 2 := by
  constructor
  · decide
  · decide

/-- C3 amended: every level-1 heading line becomes a heading element and the
fixed metadata line and abstract block are injected after every heading close
tag that is immediately followed by a blank line (not only the first).  In
particular, for `# Title\n\ntext` the output is exactly one heading element
followed immediately by the injected block, with no paragraph wrapper
between. -/
theorem C3_amended :
    md_to_html "# Title\n\ntext" = String.mk ("<h1>Title".data ++ metaBlock ++ "text".data) := by
  decide

/-! ### Claim C4: table pass -/

/-- C4 counterexample: the claim says exactly the separator row (dashes and
pipes only) is dropped and all subsequent rows become data cells.  In fact
`format_table` drops every row containing `---` anywhere: a data row with the
cell text `a---b` is dropped, so the table has no data row at all. -/
theorem C4_counterexample :
    md_to_html "| h |\n| --- |\n| a---b |\n" = "<table>\n<tr><th>h</th></tr>\n</table>" ∧
    hasSubstrL "<td>".data (md_to_htmlL "| h |\n| --- |\n| a---b |\n".data) = false := by
  constructor
  · decide
  · decide

/-- C4 amended: the table pass drops every row containing the substring `---`
anywhere (the separator row in particular); the row at index 0 of the block
becomes header cells and later surviving rows become data cells.  For a
3-row block (header, separator, one data row without `---`) this gives one
header row and one data row, the separator contributing no output row. -/
theorem C4_amended :
    md_to_html "| a | b |\n| --- | --- |\n| c | d |\n" =
      "<table>\n<tr><th>a</th><th>b</th></tr>\n<tr><td>c</td><td>d</td></tr>\n</table>" ∧
    format_table "| h |\n| --- |\n| a---b |\n".data =
      "<table>\n<tr><th>h</th></tr>\n</table>".data := by
  constructor
  · decide
  · decide

/-! ### Claim C5: PDF rendering failure handling -/

/-- C5: if the external PDF-rendering step raises any exception, the HTML
output file has already been written (with the converted content), the
diagnostic `PDF generation error: …` is printed instead of the exception
propagating, and the script exits with code 0. -/
theorem C5_theorem (md e : String) :
    (runScript md (Except.error e)).filesWritten =
      [("academic-output.html", htmlDocWrap (md_to_html (mermaidPass md 0).1))] ∧
    (runScript md (Except.error e)).printed =
      ["HTML generated: academic-output.html", "PDF generation error: " ++ e] ∧
    (runScript md (Except.error e)).exitCode = 0 :=
  ⟨rfl, rfl, rfl⟩

/-! ### Claim C7: totality of the conversion -/

/-- C7: the markdown-to-HTML conversion is a total function: for every input
string (and every counter state) the mermaid pass and `md_to_html` produce a
result.  Every Python operation the converter uses (regex substitution,
splitting, slicing, joining) is total, so the embedding is a plain function
and totality holds by construction. -/
theorem C7_theorem (s : String) (n : Nat) :
    ∃ (t : String) (m : Nat) (u : String), mermaidPass s n = (t, m) ∧ md_to_html t = u :=
  ⟨_, _, _, rfl, rfl⟩

/-! ### Lemmas about `str.replace` chunks and the code-block pass -/

theorem replaceAllL_skip {pat rep : List Char} : ∀ (w : List Char) (k : Nat) (z : List Char),
    (∀ t, t <:+ w → t ≠ [] → pat.isPrefixOf (t ++ z) = false) →
    replaceAllL pat rep (w.length + k) (w ++ z) = w ++ replaceAllL pat rep k z := by
  intro w
  induction w with
  | nil => intro k z _; simp
  | cons c w' ih =>
    intro k z h
    have h0 : pat.isPrefixOf ((c :: w') ++ z) = false := h _ (List.suffix_refl _) (by simp)
    have harith : (c :: w').length + k = (w'.length + k) + 1 := by
      simp only [List.length_cons]; omega
    rw [harith]
    simp only [List.cons_append] at h0 ⊢
    have hstep : replaceAllL pat rep ((w'.length + k) + 1) (c :: (w' ++ z)) =
        c :: replaceAllL pat rep (w'.length + k) (w' ++ z) := by
      simp only [replaceAllL, h0, Bool.and_false]
      rw [if_neg Bool.false_ne_true]
    rw [hstep, ih k z (fun t ht hne => h t (ht.trans (List.suffix_cons c w')) hne)]

theorem replaceAllL_match_single (a : Char) (rep : List Char) (k : Nat) (z : List Char) :
    replaceAllL [a] rep (k + 1) (a :: z) = rep ++ replaceAllL [a] rep k z := by
  have h0 : ([a]).isPrefixOf (a :: z) = true := by simp [List.isPrefixOf]
  simp only [replaceAllL, h0]
  simp

theorem replaceAllL_step_ne {a : Char} {rep : List Char} {c : Char} (k : Nat) (z : List Char)
    (hc : c ≠ a) :
    replaceAllL [a] rep (k + 1) (c :: z) = c :: replaceAllL [a] rep k z := by
  have h0 : ([a]).isPrefixOf (c :: z) = false := isPrefixOf_head_ne _ _ hc
  simp only [replaceAllL, h0, Bool.and_false]
  rw [if_neg Bool.false_ne_true]

theorem replaceLt_eq_map : ∀ (s : List Char) (k : Nat),
    replaceAllL ['<'] "&lt;".data (s.length + k) s =
      (s.map (fun c => if c = '<' then "&lt;".data else [c])).flatten := by
  intro s
  induction s with
  | nil => intro k; cases k <;> rfl
  | cons c t ih =>
    intro k
    have harith : (c :: t).length + k = (t.length + k) + 1 := by
      simp only [List.length_cons]; omega
    rw [harith]
    by_cases hc : c = '<'
    · subst hc
      rw [replaceAllL_match_single, ih k]
      simp
    · rw [replaceAllL_step_ne _ _ hc, ih k]
      simp [hc]

theorem replaceGt_eq_map : ∀ (s : List Char) (k : Nat),
    replaceAllL ['>'] "&gt;".data
      ((s.map (fun c => if c = '<' then "&lt;".data else [c])).flatten.length + k)
      ((s.map (fun c => if c = '<' then "&lt;".data else [c])).flatten) =
      (s.map escapeSpec).flatten := by
  intro s
  induction s with
  | nil => intro k; cases k <;> rfl
  | cons c t ih =>
    intro k
    by_cases hc : c = '<'
    · subst hc
      have hm : (('<' :: t).map (fun c => if c = '<' then "&lt;".data else [c])).flatten =
          "&lt;".data ++ (t.map (fun c => if c = '<' then "&lt;".data else [c])).flatten := by
        simp
      have hs : (('<' :: t).map escapeSpec).flatten =
          "&lt;".data ++ (t.map escapeSpec).flatten := by
        simp [escapeSpec]
      rw [hm, hs]
      have hl : ("&lt;".data ++ (t.map (fun c => if c = '<' then "&lt;".data else [c])).flatten).length + k =
          "&lt;".data.length +
            ((t.map (fun c => if c = '<' then "&lt;".data else [c])).flatten.length + k) := by
        simp only [List.length_append]; omega
      rw [hl, replaceAllL_skip _ _ _ ?hlt, ih k]
      case hlt =>
        intro u hu hne
        cases u with
        | nil => exact absurd rfl hne
        | cons d u' =>
          have hd : d ∈ "&lt;".data := hu.subset (by simp)
          have hdne : d ≠ '>' := by
            have hmem : d ∈ ['&', 'l', 't', ';'] := hd
            simp only [List.mem_cons, List.not_mem_nil, or_false] at hmem
            rcases hmem with h | h | h | h <;> subst h <;> decide
          exact isPrefixOf_head_ne _ _ hdne
    · by_cases hg : c = '>'
      · subst hg
        have hm : (('>' :: t).map (fun c => if c = '<' then "&lt;".data else [c])).flatten =
            '>' :: (t.map (fun c => if c = '<' then "&lt;".data else [c])).flatten := by
          simp
        have hs : (('>' :: t).map escapeSpec).flatten =
            "&gt;".data ++ (t.map escapeSpec).flatten := by
          simp [escapeSpec]
        rw [hm, hs]
        have hl : ('>' :: (t.map (fun c => if c = '<' then "&lt;".data else [c])).flatten).length + k =
            ((t.map (fun c => if c = '<' then "&lt;".data else [c])).flatten.length + k) + 1 := by
          simp only [List.length_cons]; omega
        rw [hl, replaceAllL_match_single, ih k]
      · have hm : ((c :: t).map (fun c => if c = '<' then "&lt;".data else [c])).flatten =
            c :: (t.map (fun c => if c = '<' then "&lt;".data else [c])).flatten := by
          simp [hc]
        have hs : ((c :: t).map escapeSpec).flatten =
            c :: (t.map escapeSpec).flatten := by
          simp [escapeSpec, hc, hg]
        rw [hm, hs]
        have hl : (c :: (t.map (fun c => if c = '<' then "&lt;".data else [c])).flatten).length + k =
            ((t.map (fun c => if c = '<' then "&lt;".data else [c])).flatten.length + k) + 1 := by
          simp only [List.length_cons]; omega
        rw [hl, replaceAllL_step_ne _ _ hg, ih k]

theorem escapeAngle_eq_spec (s : List Char) :
    escapeAngle s = (s.map escapeSpec).flatten := by
  unfold escapeAngle pyReplace
  have h1 := replaceLt_eq_map s 0
  rw [Nat.add_zero] at h1
  rw [h1]
  have h2 := replaceGt_eq_map s 0
  rw [Nat.add_zero] at h2
  rw [h2]

theorem dropWhile_append_of_all {p : Char → Bool} : ∀ {w : List Char} (z : List Char),
    (∀ c ∈ w, p c = true) → (w ++ z).dropWhile p = z.dropWhile p := by
  intro w
  induction w with
  | nil => intro z _; rfl
  | cons c w' ih =>
    intro z h
    have hc : p c = true := h c (by simp)
    simp [List.dropWhile, hc, ih z (fun d hd => h d (by simp [hd]))]

theorem tryCodeBlock_nil : tryCodeBlock [] = none := rfl

theorem tryCodeBlock_none_head {c : Char} (z : List Char) (hc : c ≠ backquote) :
    tryCodeBlock (c :: z) = none := by
  have hpre : ticks.isPrefixOf (c :: z) = false := by
    rw [show ticks = backquote :: [backquote, backquote] from rfl]
    exact isPrefixOf_head_ne _ _ hc
  simp [tryCodeBlock, hpre]

theorem tryCodeBlock_match (w body rest : List Char)
    (hw : ∀ c ∈ w, isWordChar c = true) (hbody : ∀ c ∈ body, c ≠ backquote) :
    tryCodeBlock (ticks ++ (w ++ ('\n' :: (body ++ (ticks ++ rest))))) =
      some (format_code_block body, rest) := by
  have hpre : ticks.isPrefixOf (ticks ++ (w ++ ('\n' :: (body ++ (ticks ++ rest))))) = true :=
    isPrefixOf_append_self _ _
  have hdrop : (ticks ++ (w ++ ('\n' :: (body ++ (ticks ++ rest))))).drop 3 =
      w ++ ('\n' :: (body ++ (ticks ++ rest))) := by
    rw [show (3 : Nat) = ticks.length from rfl]
    exact List.drop_left _ _
  have hdw : (w ++ ('\n' :: (body ++ (ticks ++ rest)))).dropWhile isWordChar =
      '\n' :: (body ++ (ticks ++ rest)) := by
    rw [dropWhile_append_of_all _ hw]
    simp [List.dropWhile, show isWordChar '\n' = false from rfl]
  have hsplit : splitAtSubstr ticks (body ++ (ticks ++ rest)) = some (body, rest) :=
    splitAtSubstr_boundary hbody
  simp only [tryCodeBlock, hpre, if_true, hdrop, hdw, hsplit]

/-! ### Claim C8: fenced code blocks (counterexample part) -/

/-- C8 counterexample: the claim says every fenced block becomes a pre/code
element whose content is the block's content with angle brackets escaped.  But
the heading and rule passes run before the code-block pass: for
`'```'+newline+'# x'+newline+'```'` the line `# x` inside the fence is first
rewritten to `<h1>x</h1>`, so the escaped content is not the block's original
content (which contained no angle bracket at all). -/
theorem C8_counterexample :
    md_to_html "```\n# x\n```" = "<pre><code>&lt;h1&gt;x&lt;/h1&gt;\n</code></pre>" ∧
    hasSubstrL "<pre><code># x".data (md_to_htmlL "```\n# x\n```".data) = false := by
  constructor
  · decide
  · decide

/-- C8 amended: every fenced block reaching the code-block pass — three
backquotes, a (possibly empty) word-character language tag, a newline, a
backquote-free body, and a closing fence — becomes a pre/code element whose
content is the body *as it stands at that pass* with every angle bracket
escaped to its character entity (the escaping really is the character-wise map
replacing `<` by `&lt;` and `>` by `&gt;`); the surrounding backquote-free
text passes through unchanged. -/
theorem C8_amended :
    (∀ (pre w body rest : List Char) (k : Nat),
      (∀ c ∈ pre, c ≠ backquote) → (∀ c ∈ w, isWordChar c = true) →
      (∀ c ∈ body, c ≠ backquote) → (∀ c ∈ rest, c ≠ backquote) →
      scanP tryCodeBlock (pre.length + (k + 1))
          (pre ++ (ticks ++ (w ++ ('\n' :: (body ++ (ticks ++ rest)))))) =
        pre ++ (format_code_block body ++ rest)) ∧
    (∀ body : List Char, escapeAngle body = (body.map escapeSpec).flatten) := by
  constructor
  · intro pre w body rest k hpre hw hbody hrest
    rw [scanP_skip tryCodeBlock pre (k + 1) _ ?hcond]
    case hcond =>
      intro t ht hne
      cases t with
      | nil => exact absurd rfl hne
      | cons c t' =>
        have hc : c ≠ backquote := hpre c (ht.subset (by simp))
        exact tryCodeBlock_none_head _ hc
    have hm := tryCodeBlock_match w body rest hw hbody
    have hstep : scanP tryCodeBlock (k + 1)
        (ticks ++ (w ++ ('\n' :: (body ++ (ticks ++ rest))))) =
        format_code_block body ++ scanP tryCodeBlock k rest := by
      simp only [scanP, hm]
    rw [hstep, scanP_id tryCodeBlock k rest ?hrest2]
    case hrest2 =>
      intro t ht
      cases t with
      | nil => exact tryCodeBlock_nil
      | cons c t' =>
        exact tryCodeBlock_none_head _ (hrest c (ht.subset (by simp)))
  · intro body
    exact escapeAngle_eq_spec body

/-- C8 witness: the amended code-block theorem at a concrete fence with a
language tag, an angle bracket in the body, and surrounding text, together
with a concrete instance of the escaping characterization. -/
theorem C8_witness :
    scanP tryCodeBlock ("x\n".data.length + (0 + 1))
        ("x\n".data ++ (ticks ++ ("py".data ++ ('\n' :: ("a<b\n".data ++ (ticks ++ "\ny".data)))))) =
      "x\n".data ++ (format_code_block "a<b\n".data ++ "\ny".data) :=
  C8_amended.1 "x\n".data "py".data "a<b\n".data "\ny".data 0
    (by decide) (by decide) (by decide) (by decide)

/-! ### Lemmas about the no-markdown predicate -/

theorem noMd_tail {c : Char} {t : List Char} (h : noMd (c :: t) = true) : noMd t = true := by
  simp only [noMd, Bool.and_eq_true] at h
  exact h.2

theorem noMd_head {c : Char} {t : List Char} (h : noMd (c :: t) = true) : noMdStep c t = true := by
  simp only [noMd, Bool.and_eq_true] at h
  exact h.1

theorem noMd_append_right : ∀ {u w : List Char}, noMd (u ++ w) = true → noMd w = true := by
  intro u
  induction u with
  | nil => intro w h; exact h
  | cons c u' ih => intro w h; exact ih (noMd_tail h)

theorem noMd_suffix {w s : List Char} (hs : w <:+ s) (h : noMd s = true) : noMd w = true := by
  obtain ⟨u, rfl⟩ := hs
  exact noMd_append_right h

theorem noMdStep_chars {c : Char} {t : List Char} (h : noMdStep c t = true) :
    c ≠ '#' ∧ c ≠ backquote ∧ c ≠ '*' ∧ c ≠ '|' ∧ c ≠ '<' := by
  simp only [noMdStep, Bool.and_eq_true, Bool.not_eq_true', beq_eq_false_iff_ne] at h
  exact ⟨h.1.1.1.1.1.1.1, h.1.1.1.1.1.1.2, h.1.1.1.1.1.2, h.1.1.1.1.2, h.1.1.1.2⟩

theorem noMd_mem : ∀ {s : List Char}, noMd s = true →
    ∀ c ∈ s, c ≠ '#' ∧ c ≠ backquote ∧ c ≠ '*' ∧ c ≠ '|' ∧ c ≠ '<' := by
  intro s
  induction s with
  | nil => intro _ c hc; exact absurd hc (by simp)
  | cons d t ih =>
    intro h c hc
    rcases List.mem_cons.mp hc with rfl | hmem
    · exact noMdStep_chars (noMd_head h)
    · exact ih (noMd_tail h) c hmem

theorem noMdStep_dashdash (z : List Char) : noMdStep '-' ('-' :: z) = false := rfl

theorem noMdStep_bang (z : List Char) : noMdStep '!' ('[' :: z) = false := rfl

theorem noMdStep_dash_ws {d : Char} (z : List Char) (hd : pyWs d = true) :
    noMdStep '-' (d :: z) = false := by
  simp [noMdStep, hd]

theorem noMdStep_digit_dot_ws {a d : Char} (z : List Char) (ha : pyDigit a = true)
    (hd : pyWs d = true) : noMdStep a ('.' :: d :: z) = false := by
  simp [noMdStep, ha, hd]

theorem noMdStep_bang_bracket {c : Char} {t : List Char} (h : noMdStep c t = true)
    (hc : c = '!') : t.head? ≠ some '[' := by
  subst hc
  intro hhd
  simp only [noMdStep, Bool.and_eq_true] at h
  have h6 := h.1.1.2
  rw [hhd] at h6
  simp at h6

/-! ### The conversion passes never fire on no-markdown text -/

theorem tryInlineCode_none {c : Char} (z : List Char) (hc : c ≠ backquote) :
    tryInlineCode (c :: z) = none := by
  simp [tryInlineCode, hc]

theorem tryBold_none {c : Char} (z : List Char) (hc : c ≠ '*') :
    tryBold (c :: z) = none := by
  unfold tryBold
  split
  · next t heq =>
    injection heq with h1 _
    exact absurd h1 hc
  · rfl

theorem tryItalic_none {c : Char} (z : List Char) (hc : c ≠ '*') :
    tryItalic (c :: z) = none := by
  unfold tryItalic
  split
  · next t heq =>
    injection heq with h1 _
    exact absurd h1 hc
  · rfl

theorem tryImage_none {c : Char} (z : List Char) (hc : c = '!' → z.head? ≠ some '[') :
    tryImage (c :: z) = none := by
  unfold tryImage
  split
  · next t heq =>
    injection heq with h1 h2
    exact absurd (by rw [h2]; rfl) (hc h1)
  · rfl

theorem tryTableLine_none {c : Char} (z : List Char) (hc : c ≠ '|') :
    tryTableLine (c :: z) = none := by
  unfold tryTableLine
  split
  · next heq =>
    injection heq with h1 _
    exact absurd h1 hc
  · rfl

theorem collectUnits_none {tryOne : List Char → Option (List Char × List Char)}
    {s : List Char} (h : tryOne s = none) :
    ∀ fuel, collectUnits tryOne fuel s = none := by
  intro fuel
  cases fuel with
  | zero => rfl
  | succ f => simp [collectUnits, h]

theorem tryItemTail_none (pre : List Char) {r : List Char}
    (h : ∀ d, r.head? = some d → pyWs d = false) : tryItemTail pre r = none := by
  have hempty : r.takeWhile pyWs = [] := by
    cases r with
    | nil => rfl
    | cons d r' =>
      have := h d rfl
      simp [List.takeWhile_cons, this]
  unfold tryItemTail
  rw [hempty]
  simp

theorem tryUlItem_none {t : List Char} (h : noMd t = true) : tryUlItem t = none := by
  unfold tryUlItem
  cases hdw : t.dropWhile pyWs with
  | nil => simp
  | cons m r =>
    have hsuf : (m :: r) <:+ t := hdw ▸ List.dropWhile_suffix pyWs
    have hmr : noMd (m :: r) = true := noMd_suffix hsuf h
    simp only
    split
    · next hm =>
      refine tryItemTail_none _ ?_
      intro d hd
      cases r with
      | nil => exact absurd hd (by simp)
      | cons e r' =>
        have he : e = d := by simpa using hd
        rcases hm with rfl | rfl
        · cases hpw : pyWs d
          · rfl
          · exfalso
            have hws' : pyWs e = true := by rw [he, hpw]
            have hfalse := noMdStep_dash_ws r' hws'
            rw [noMd_head hmr] at hfalse
            simp at hfalse
        · have hne := (noMdStep_chars (noMd_head hmr)).2.2.1
          exact absurd rfl hne
    · rfl

theorem tryOlItem_none {t : List Char} (h : noMd t = true) : tryOlItem t = none := by
  unfold tryOlItem
  dsimp only
  split
  · next d0 ds' r heq1 heq2 =>
    refine tryItemTail_none _ ?_
    intro d hd
    have hsuf0 : (t.dropWhile pyWs) <:+ t := List.dropWhile_suffix pyWs
    have hr0eq : t.dropWhile pyWs = (d0 :: ds') ++ ('.' :: r) := by
      conv_lhs => rw [← List.takeWhile_append_dropWhile pyDigit (t.dropWhile pyWs)]
      rw [heq1, heq2]
    have hne : (d0 :: ds') ≠ ([] : List Char) := by simp
    have hds : (d0 :: ds').dropLast ++ [(d0 :: ds').getLast hne] = d0 :: ds' :=
      List.dropLast_append_getLast hne
    set dl := (d0 :: ds').getLast hne with hdl
    have hsufdl : (dl :: '.' :: r) <:+ t := by
      refine List.IsSuffix.trans ?_ hsuf0
      refine ⟨(d0 :: ds').dropLast, ?_⟩
      rw [hr0eq, ← hds]
      simp
    have hstep : noMdStep dl ('.' :: r) = true :=
      noMd_head (noMd_suffix hsufdl h)
    have hdig : pyDigit dl = true := by
      have hmemdl : dl ∈ (d0 :: ds') := List.getLast_mem hne
      rw [← heq1] at hmemdl
      exact List.mem_takeWhile_imp hmemdl
    cases r with
    | nil => exact absurd hd (by simp)
    | cons e r' =>
      have he : e = d := by simpa using hd
      cases hpw : pyWs d
      · rfl
      · exfalso
        have hws' : pyWs e = true := by rw [he, hpw]
        have hfalse := noMdStep_digit_dot_ws r' hdig hws'
        rw [hstep] at hfalse
        simp at hfalse
  · rfl

/-! ### Line-based passes are the identity on no-markdown text -/

theorem splitOnChar_ne_nil (sep : Char) : ∀ (s : List Char), splitOnChar sep s ≠ [] := by
  intro s
  cases s with
  | nil => simp [splitOnChar]
  | cons c t =>
    simp only [splitOnChar]
    split
    · simp
    · split
      · simp
      · simp

theorem joinSep_splitOnChar (sep : Char) : ∀ (s : List Char),
    joinSep [sep] (splitOnChar sep s) = s := by
  intro s
  induction s with
  | nil => rfl
  | cons c t ih =>
    by_cases hc : c = sep
    · subst hc
      simp only [splitOnChar, if_pos rfl]
      cases hsp : splitOnChar c t with
      | nil => exact absurd hsp (splitOnChar_ne_nil c t)
      | cons l ls =>
        rw [hsp] at ih
        simp only [joinSep]
        simpa using ih
    · simp only [splitOnChar, if_neg hc]
      cases hsp : splitOnChar sep t with
      | nil => exact absurd hsp (splitOnChar_ne_nil sep t)
      | cons l ls =>
        rw [hsp] at ih
        cases ls with
        | nil =>
          simp only [joinSep] at ih ⊢
          rw [ih]
        | cons l2 ls2 =>
          simp only [joinSep] at ih ⊢
          rw [← ih]
          simp

theorem joinSep_infix_of_mem {sep : List Char} : ∀ {ls : List (List Char)} {l : List Char},
    l ∈ ls → ∃ u v, joinSep sep ls = u ++ (l ++ v) := by
  intro ls
  induction ls with
  | nil => intro l hl; exact absurd hl (by simp)
  | cons l0 ls' ih =>
    intro l hl
    rcases List.mem_cons.mp hl with rfl | hmem
    · cases ls' with
      | nil => exact ⟨[], [], by simp [joinSep]⟩
      | cons a b => exact ⟨[], sep ++ joinSep sep (a :: b), by simp [joinSep]⟩
    · obtain ⟨u, v, huv⟩ := ih hmem
      cases ls' with
      | nil => exact absurd hmem (by simp)
      | cons a b =>
        refine ⟨l0 ++ sep ++ u, v, ?_⟩
        simp only [joinSep, huv]
        simp

theorem splitOnChar_decomp {sep : Char} {s l : List Char} (hl : l ∈ splitOnChar sep s) :
    ∃ u v, s = u ++ (l ++ v) := by
  obtain ⟨u, v, huv⟩ := @joinSep_infix_of_mem [sep] _ _ hl
  exact ⟨u, v, by rw [← joinSep_splitOnChar sep s, huv]⟩

theorem lineMapPass_id {f : List Char → List Char} {s : List Char}
    (h : ∀ l ∈ splitOnChar '\n' s, f l = l) : lineMapPass f s = s := by
  unfold lineMapPass
  have hmap : (splitOnChar '\n' s).map f = splitOnChar '\n' s := by
    have hcongr : (splitOnChar '\n' s).map f = (splitOnChar '\n' s).map id :=
      List.map_congr_left (fun a ha => h a ha)
    simpa using hcongr
  rw [hmap, joinSep_splitOnChar]

theorem h1Line_id {l : List Char} (h : '#' ∉ l) : h1Line l = l := by
  unfold h1Line
  rw [if_neg]
  rintro ⟨_, hpre⟩
  obtain ⟨r, hr⟩ := List.isPrefixOf_iff_prefix.mp hpre
  exact h (by rw [← hr]; simp)

theorem h2Line_id {l : List Char} (h : '#' ∉ l) : h2Line l = l := by
  unfold h2Line
  rw [if_neg]
  rintro ⟨_, hpre⟩
  obtain ⟨r, hr⟩ := List.isPrefixOf_iff_prefix.mp hpre
  exact h (by rw [← hr]; simp)

theorem h3Line_id {l : List Char} (h : '#' ∉ l) : h3Line l = l := by
  unfold h3Line
  rw [if_neg]
  rintro ⟨_, hpre⟩
  obtain ⟨r, hr⟩ := List.isPrefixOf_iff_prefix.mp hpre
  exact h (by rw [← hr]; simp)

theorem hrLine_id {l : List Char} (h : ∀ rest, l ≠ '-' :: '-' :: rest) : hrLine l = l := by
  unfold hrLine
  rw [if_neg]
  rintro ⟨hlen, hall⟩
  cases l with
  | nil => simp at hlen
  | cons a l1 =>
    cases l1 with
    | nil => simp at hlen
    | cons b l2 =>
      simp only [List.all_cons, Bool.and_eq_true, decide_eq_true_eq] at hall
      obtain ⟨ha, hb, _⟩ := hall
      subst ha
      subst hb
      exact h l2 rfl

theorem h1Pass_id {s : List Char} (h : noMd s = true) : lineMapPass h1Line s = s := by
  refine lineMapPass_id ?_
  intro l hl
  refine h1Line_id ?_
  intro hmem
  obtain ⟨u, v, huv⟩ := splitOnChar_decomp hl
  have hs : '#' ∈ s := by rw [huv]; simp [hmem]
  exact (noMd_mem h '#' hs).1 rfl

theorem h2Pass_id {s : List Char} (h : noMd s = true) : lineMapPass h2Line s = s := by
  refine lineMapPass_id ?_
  intro l hl
  refine h2Line_id ?_
  intro hmem
  obtain ⟨u, v, huv⟩ := splitOnChar_decomp hl
  have hs : '#' ∈ s := by rw [huv]; simp [hmem]
  exact (noMd_mem h '#' hs).1 rfl

theorem h3Pass_id {s : List Char} (h : noMd s = true) : lineMapPass h3Line s = s := by
  refine lineMapPass_id ?_
  intro l hl
  refine h3Line_id ?_
  intro hmem
  obtain ⟨u, v, huv⟩ := splitOnChar_decomp hl
  have hs : '#' ∈ s := by rw [huv]; simp [hmem]
  exact (noMd_mem h '#' hs).1 rfl

theorem hrPass_id {s : List Char} (h : noMd s = true) : lineMapPass hrLine s = s := by
  refine lineMapPass_id ?_
  intro l hl
  refine hrLine_id ?_
  intro rest hrest
  obtain ⟨u, v, huv⟩ := splitOnChar_decomp hl
  subst hrest
  have hsuf : ('-' :: '-' :: (rest ++ v)) <:+ s := ⟨u, by rw [huv]; simp⟩
  have hstep := noMd_head (noMd_suffix hsuf h)
  rw [noMdStep_dashdash] at hstep
  simp at hstep

theorem metaPass_id {s : List Char} (h : noMd s = true) :
    pyReplace "</h1>\n\n".data metaBlock s = s := by
  refine replaceAllL_id _ ?_
  exact hasSubstrL_false (fun c hc => ((noMd_mem h c hc).2.2.2.2))

/-! ### Scan passes are the identity on no-markdown text -/

theorem tryCodeBlock_none_noMd {t : List Char} (h : noMd t = true) : tryCodeBlock t = none := by
  cases t with
  | nil => exact tryCodeBlock_nil
  | cons c z => exact tryCodeBlock_none_head z (noMdStep_chars (noMd_head h)).2.1

theorem tryInlineCode_none_noMd {t : List Char} (h : noMd t = true) : tryInlineCode t = none := by
  cases t with
  | nil => rfl
  | cons c z => exact tryInlineCode_none z (noMdStep_chars (noMd_head h)).2.1

theorem tryBold_none_noMd {t : List Char} (h : noMd t = true) : tryBold t = none := by
  cases t with
  | nil => rfl
  | cons c z => exact tryBold_none z (noMdStep_chars (noMd_head h)).2.2.1

theorem tryItalic_none_noMd {t : List Char} (h : noMd t = true) : tryItalic t = none := by
  cases t with
  | nil => rfl
  | cons c z => exact tryItalic_none z (noMdStep_chars (noMd_head h)).2.2.1

theorem tryImage_none_noMd {t : List Char} (h : noMd t = true) : tryImage t = none := by
  cases t with
  | nil => rfl
  | cons c z => exact tryImage_none z (fun hc => noMdStep_bang_bracket (noMd_head h) hc)

theorem tryTable_none_noMd {t : List Char} (h : noMd t = true) : tryTable t = none := by
  have h1 : tryTableLine t = none := by
    cases t with
    | nil => rfl
    | cons c z => exact tryTableLine_none z (noMdStep_chars (noMd_head h)).2.2.2.1
  simp [tryTable, collectUnits_none h1]

theorem tryUlBlock_none_noMd {t : List Char} (h : noMd t = true) : tryUlBlock t = none := by
  simp [tryUlBlock, collectUnits_none (tryUlItem_none h)]

theorem tryOlBlock_none_noMd {t : List Char} (h : noMd t = true) : tryOlBlock t = none := by
  simp [tryOlBlock, collectUnits_none (tryOlItem_none h)]

/-! ### Well-formed paragraph output and the cleanup patterns -/

theorem goodSuffix_tail {c : Char} {t : List Char} (h : goodSuffix (c :: t) = true) :
    goodSuffix t = true := by
  simp only [goodSuffix, Bool.and_eq_true] at h
  exact h.2

theorem goodSuffix_lt {c : Char} {t : List Char} (h : goodSuffix (c :: t) = true)
    (hc : c = '<') : afterLt t = true := by
  subst hc
  simp only [goodSuffix, Bool.and_eq_true] at h
  simpa using h.1.1

theorem goodSuffix_nl {t : List Char} (h : goodSuffix ('\n' :: t) = true) :
    "</p>".data.isPrefixOf t = false := by
  simp only [goodSuffix, Bool.and_eq_true] at h
  simpa using h.1.2

theorem goodSuffix_append_right : ∀ {u w : List Char}, goodSuffix (u ++ w) = true →
    goodSuffix w = true := by
  intro u
  induction u with
  | nil => intro w h; exact h
  | cons c u' ih => intro w h; exact ih (goodSuffix_tail h)

theorem goodSuffix_suffix {w s : List Char} (hs : w <:+ s) (h : goodSuffix s = true) :
    goodSuffix w = true := by
  obtain ⟨u, rfl⟩ := hs
  exact goodSuffix_append_right h

theorem hasSubstr_nlClose_false : ∀ {s : List Char}, goodSuffix s = true →
    hasSubstrL "\n</p>".data s = false := by
  intro s
  induction s with
  | nil => intro _; rfl
  | cons c t ih =>
    intro h
    simp only [hasSubstrL, Bool.or_eq_false_iff]
    refine ⟨?_, ih (goodSuffix_tail h)⟩
    by_cases hc : c = '\n'
    · subst hc
      have hnp := goodSuffix_nl h
      rw [show ("</p>".data : List Char) = ['<', '/', 'p', '>'] by decide] at hnp
      simp [List.isPrefixOf, hnp]
    · exact isPrefixOf_head_ne _ _ hc

theorem afterLt_shapes {z : List Char} (h : afterLt z = true) :
    (∃ d rest, z = 'p' :: '>' :: d :: rest ∧ pyWs d = false ∧ d ≠ '<') ∨
    (∃ rest, z = '/' :: 'p' :: '>' :: rest) := by
  unfold afterLt at h
  split at h
  · next t d rest =>
    left
    simp only [Bool.and_eq_true, Bool.not_eq_true', beq_eq_false_iff_ne] at h
    exact ⟨d, rest, rfl, h.1, h.2⟩
  · next t rest => right; exact ⟨rest, rfl⟩
  · simp at h

theorem tryEmptyP_none_of_good {t : List Char} (h : goodSuffix t = true) :
    tryEmptyP t = none := by
  unfold tryEmptyP
  by_cases hp : "<p>".data.isPrefixOf t = true
  · rw [if_pos hp]
    obtain ⟨r, hr⟩ := List.isPrefixOf_iff_prefix.mp hp
    have ht : t = '<' :: 'p' :: '>' :: r := by rw [← hr]; rfl
    subst ht
    have haft : afterLt ('p' :: '>' :: r) = true := goodSuffix_lt h rfl
    rcases afterLt_shapes haft with ⟨d, rest, heq, hws, hlt⟩ | ⟨rest, heq⟩
    · have hdr : r = d :: rest := by
        injection heq with _ h2
        injection h2
      subst hdr
      have hdrop : ('<' :: 'p' :: '>' :: d :: rest).drop 3 = d :: rest := rfl
      rw [hdrop]
      have hdw : (d :: rest).dropWhile pyWs = d :: rest := by
        simp [List.dropWhile_cons, hws]
      rw [hdw]
      rw [if_neg]
      rw [show "</p>".data = '<' :: "/p>".data by decide]
      rw [isPrefixOf_head_ne _ _ hlt]
      simp
    · exact absurd heq (by simp)
  · rw [if_neg hp]

theorem firstPrefixOf_none_of_ne {c : Char} (hc : c ≠ '<') :
    ∀ (alts : List (List Char)) (z : List Char), (∀ a ∈ alts, ∃ a', a = '<' :: a') →
    firstPrefixOf alts (c :: z) = none := by
  intro alts
  induction alts with
  | nil => intro z _; rfl
  | cons a rest ih =>
    intro z h
    obtain ⟨a', ha⟩ := h a (by simp)
    subst ha
    simp only [firstPrefixOf]
    rw [if_neg (by rw [isPrefixOf_head_ne _ _ hc]; simp)]
    exact ih z (fun b hb => h b (by simp [hb]))

theorem openerAt_none {d : Char} (z : List Char) (hd : d ≠ '<') : openerAt (d :: z) = none := by
  unfold openerAt
  split
  · next c r heq => injection heq with h1 _; exact absurd h1 hd
  · refine firstPrefixOf_none_of_ne hd _ z ?_
    intro a ha
    simp only [List.mem_cons, List.not_mem_nil, or_false] at ha
    rcases ha with rfl | rfl | rfl | rfl | rfl
    · exact ⟨"figure".data, by decide⟩
    · exact ⟨"table".data, by decide⟩
    · exact ⟨"ul".data, by decide⟩
    · exact ⟨"ol".data, by decide⟩
    · exact ⟨"pre".data, by decide⟩

theorem tryPOpenBefore_none_of_good {t : List Char} (h : goodSuffix t = true) :
    tryPOpenBefore t = none := by
  unfold tryPOpenBefore
  by_cases hp : "<p>".data.isPrefixOf t = true
  · rw [if_pos hp]
    obtain ⟨r, hr⟩ := List.isPrefixOf_iff_prefix.mp hp
    have ht : t = '<' :: 'p' :: '>' :: r := by rw [← hr]; rfl
    subst ht
    have haft : afterLt ('p' :: '>' :: r) = true := goodSuffix_lt h rfl
    rcases afterLt_shapes haft with ⟨d, rest, heq, hws, hlt⟩ | ⟨rest, heq⟩
    · have hdr : r = d :: rest := by
        injection heq with _ h2
        injection h2
      subst hdr
      have hdrop : ('<' :: 'p' :: '>' :: d :: rest).drop 3 = d :: rest := rfl
      rw [hdrop]
      have hdw : (d :: rest).dropWhile pyWs = d :: rest := by
        simp [List.dropWhile_cons, hws]
      simp only [hdrop, hdw, openerAt_none rest hlt]
    · exact absurd heq (by simp)
  · rw [if_neg hp]

theorem closerAt_none_of_good {t : List Char} (h : goodSuffix t = true) :
    closerAt t = none := by
  cases t with
  | nil => rfl
  | cons c z =>
    by_cases hc : c = '<'
    · subst hc
      have haft := goodSuffix_lt h rfl
      rcases afterLt_shapes haft with ⟨d, rest, heq, _, _⟩ | ⟨rest, heq⟩
      · subst heq
        rfl
      · subst heq
        rfl
    · unfold closerAt
      split
      · next e r heq => injection heq with h1 _; exact absurd h1 hc
      · refine firstPrefixOf_none_of_ne hc _ z ?_
        intro a ha
        simp only [List.mem_cons, List.not_mem_nil, or_false] at ha
        rcases ha with rfl | rfl | rfl | rfl | rfl
        · exact ⟨"/table>".data, by decide⟩
        · exact ⟨"/ul>".data, by decide⟩
        · exact ⟨"/ol>".data, by decide⟩
        · exact ⟨"/pre>".data, by decide⟩
        · exact ⟨"/figure>".data, by decide⟩

theorem tryCloseP_none_of_good {t : List Char} (h : goodSuffix t = true) :
    tryCloseP t = none := by
  unfold tryCloseP
  rw [closerAt_none_of_good h]

/-! ### Facts about stripping and building well-formed paragraph output -/

theorem head?_dropWhile_not {p : Char → Bool} : ∀ {l : List Char} {c : Char},
    (l.dropWhile p).head? = some c → p c = false := by
  intro l
  induction l with
  | nil => intro c h; simp at h
  | cons a t ih =>
    intro c h
    by_cases hp : p a = true
    · rw [List.dropWhile_cons, if_pos hp] at h
      exact ih h
    · rw [List.dropWhile_cons, if_neg hp] at h
      simp only [List.head?_cons, Option.some.injEq] at h
      subst h
      simpa using hp

theorem pyStrip_last {s : List Char} {c : Char} (h : (pyStrip s).getLast? = some c) :
    pyWs c = false := by
  unfold pyStrip at h
  rw [List.getLast?_reverse] at h
  exact head?_dropWhile_not h

theorem pyStrip_head {s : List Char} {c : Char} (h : (pyStrip s).head? = some c) :
    pyWs c = false := by
  unfold pyStrip at h
  rw [List.head?_reverse] at h
  obtain ⟨u, hu⟩ := (List.dropWhile_suffix pyWs :
    (s.dropWhile pyWs).reverse.dropWhile pyWs <:+ (s.dropWhile pyWs).reverse)
  cases hrn : (s.dropWhile pyWs).reverse.dropWhile pyWs with
  | nil => rw [hrn] at h; simp at h
  | cons x rs =>
    have h1 : ((s.dropWhile pyWs).reverse.dropWhile pyWs).getLast? =
        ((s.dropWhile pyWs).reverse).getLast? := by
      conv_rhs => rw [← hu]
      rw [hrn, List.getLast?_append]
      cases hgl : (x :: rs).getLast? with
      | none => simp at hgl
      | some a => rfl
    rw [h1, List.getLast?_reverse] at h
    exact head?_dropWhile_not h

theorem pyStrip_mem {s : List Char} {c : Char} (h : c ∈ pyStrip s) : c ∈ s := by
  unfold pyStrip at h
  rw [List.mem_reverse] at h
  have h2 := (List.dropWhile_suffix pyWs).subset h
  rw [List.mem_reverse] at h2
  exact (List.dropWhile_suffix pyWs).subset h2

theorem goodSuffix_cons_intro {c : Char} {t : List Char} (h1 : c = '<' → afterLt t = true)
    (h2 : c = '\n' → "</p>".data.isPrefixOf t = false) (h3 : goodSuffix t = true) :
    goodSuffix (c :: t) = true := by
  simp only [goodSuffix, Bool.and_eq_true]
  refine ⟨⟨?_, ?_⟩, h3⟩
  · by_cases hc : c = '<'
    · rw [if_pos hc]; exact h1 hc
    · rw [if_neg hc]
  · by_cases hc : c = '\n'
    · rw [if_pos hc]; simp [h2 hc]
    · rw [if_neg hc]

theorem prefix_close_false_cases {r : List Char}
    (h : (∀ e, r.head? = some e → e ≠ '<') ∨ (∃ z, r = '<' :: 'p' :: z)) :
    "</p>".data.isPrefixOf r = false := by
  rcases h with h | ⟨z, rfl⟩
  · cases r with
    | nil => decide
    | cons e r' =>
      rw [show ("</p>".data : List Char) = '<' :: "/p>".data by decide]
      exact isPrefixOf_head_ne _ _ (h e rfl)
  · rw [show ("</p>".data : List Char) = ['<', '/', 'p', '>'] by decide]
    rfl

theorem goodSuffix_append_of : ∀ {w : List Char} (tail : List Char),
    (∀ c ∈ w, c ≠ '<') →
    (∀ x y, w = x ++ '\n' :: y → ("</p>".data.isPrefixOf (y ++ tail)) = false) →
    goodSuffix tail = true → goodSuffix (w ++ tail) = true := by
  intro w
  induction w with
  | nil => intro tail _ _ h3; exact h3
  | cons c w' ih =>
    intro tail h1 h2 h3
    have hc : c ≠ '<' := h1 c (by simp)
    have hgtail : goodSuffix (w' ++ tail) = true :=
      ih tail (fun d hd => h1 d (by simp [hd]))
        (fun x y hxy => h2 (c :: x) y (by simp [hxy])) h3
    rw [List.cons_append]
    refine goodSuffix_cons_intro (fun hceq => absurd hceq hc) (fun hnl => ?_) hgtail
    subst hnl
    exact h2 [] w' (by simp)

theorem goodSuffix_closep (tail : List Char) (h : goodSuffix tail = true) :
    goodSuffix ("</p>".data ++ tail) = true := by
  rw [show ("</p>".data : List Char) = ['<', '/', 'p', '>'] by decide]
  simp only [List.cons_append, List.nil_append]
  refine goodSuffix_cons_intro (fun _ => rfl) (fun hc => absurd hc (by decide)) ?_
  refine goodSuffix_cons_intro (fun hc => absurd hc (by decide)) (fun hc => absurd hc (by decide)) ?_
  refine goodSuffix_cons_intro (fun hc => absurd hc (by decide)) (fun hc => absurd hc (by decide)) ?_
  exact goodSuffix_cons_intro (fun hc => absurd hc (by decide)) (fun hc => absurd hc (by decide)) h

theorem goodSuffix_wrap (st tail : List Char)
    (hne : st ≠ []) (hlt : ∀ c ∈ st, c ≠ '<')
    (hhead : ∀ c, st.head? = some c → pyWs c = false)
    (hlast : ∀ c, st.getLast? = some c → pyWs c = false)
    (htail : goodSuffix tail = true) :
    goodSuffix ("<p>".data ++ (st ++ ("</p>".data ++ tail))) = true := by
  have hinner : goodSuffix (st ++ ("</p>".data ++ tail)) = true := by
    refine goodSuffix_append_of _ hlt ?_ (goodSuffix_closep tail htail)
    intro x y hxy
    cases hy : y with
    | nil =>
      subst hy
      exfalso
      have hl : st.getLast? = some '\n' := by
        rw [hxy]
        exact List.getLast?_concat x
      have hws := hlast '\n' hl
      simp [pyWs] at hws
    | cons e y' =>
      have he : e ∈ st := by rw [hxy, hy]; simp
      simp only [List.cons_append]
      exact isPrefixOf_head_ne _ _ (hlt e he)
  obtain ⟨d, st', rfl⟩ : ∃ d st', st = d :: st' := by
    cases st with
    | nil => exact absurd rfl hne
    | cons a b => exact ⟨a, b, rfl⟩
  have hd1 : pyWs d = false := hhead d rfl
  have hd2 : d ≠ '<' := hlt d (by simp)
  rw [show ("<p>".data : List Char) = ['<', 'p', '>'] by decide]
  simp only [List.cons_append, List.nil_append]
  refine goodSuffix_cons_intro (fun _ => ?_) (fun hc => absurd hc (by decide)) ?_
  · simp [afterLt, hd1, hd2]
  · refine goodSuffix_cons_intro (fun hc => absurd hc (by decide)) (fun hc => absurd hc (by decide)) ?_
    refine goodSuffix_cons_intro (fun hc => absurd hc (by decide)) (fun hc => absurd hc (by decide)) ?_
    simpa using hinner

theorem close_not_prefix_wrapChunk_append (c0 r : List Char)
    (h : ∀ c ∈ c0, c ≠ '<')
    (hr : ∀ e, r.head? = some e → e ≠ '<') :
    "</p>".data.isPrefixOf (wrapChunk c0 ++ r) = false := by
  unfold wrapChunk
  dsimp only
  split
  · refine prefix_close_false_cases (Or.inr ?_)
    refine ⟨'>' :: (pyStrip c0 ++ ('<' :: '/' :: 'p' :: '>' :: r)), ?_⟩
    simp
  · refine prefix_close_false_cases (Or.inl ?_)
    intro e he
    cases c0 with
    | nil =>
      simp only [List.nil_append] at he
      exact hr e he
    | cons x xs =>
      have hex : x = e := by simpa using he
      subst hex
      exact h x (by simp)

theorem joinSep_wrap_noClose : ∀ (cs : List (List Char)),
    (∀ l ∈ cs, ∀ c ∈ l, c ≠ '<') →
    "</p>".data.isPrefixOf (joinSep "\n\n".data (cs.map wrapChunk)) = false := by
  intro cs h
  cases cs with
  | nil => decide
  | cons c0 cs' =>
    have hc0 := h c0 (by simp)
    cases cs' with
    | nil =>
      rw [show joinSep "\n\n".data ((c0 :: []).map wrapChunk) = wrapChunk c0 ++ [] by
        simp [joinSep]]
      refine close_not_prefix_wrapChunk_append c0 [] hc0 ?_
      intro e he
      simp at he
    | cons a b =>
      rw [show joinSep "\n\n".data ((c0 :: a :: b).map wrapChunk) =
          wrapChunk c0 ++ ("\n\n".data ++ joinSep "\n\n".data ((a :: b).map wrapChunk)) by
        simp [joinSep]]
      refine close_not_prefix_wrapChunk_append c0 _ hc0 ?_
      intro e he
      rw [show ("\n\n".data : List Char) = ['\n', '\n'] by decide] at he
      have h9 : '\n' = e := by simpa using he
      subst h9
      decide

theorem goodSuffix_wrapChunk_append (c0 tail : List Char)
    (hc0 : ∀ c ∈ c0, c ≠ '<')
    (htail : goodSuffix tail = true)
    (hthead : ∀ e, tail.head? = some e → e ≠ '<') :
    goodSuffix (wrapChunk c0 ++ tail) = true := by
  unfold wrapChunk
  dsimp only
  split
  · next hcond =>
    obtain ⟨hne, _⟩ := hcond
    have hst_lt : ∀ c ∈ pyStrip c0, c ≠ '<' := fun c hc => hc0 c (pyStrip_mem hc)
    have hsh : ∀ c, (pyStrip c0).head? = some c → pyWs c = false := fun c hc => pyStrip_head hc
    have hsl : ∀ c, (pyStrip c0).getLast? = some c → pyWs c = false := fun c hc => pyStrip_last hc
    have hw := goodSuffix_wrap (pyStrip c0) tail hne hst_lt hsh hsl htail
    simpa using hw
  · refine goodSuffix_append_of tail hc0 ?_ htail
    intro x y hxy
    cases hy : y with
    | nil =>
      subst hy
      simp only [List.nil_append]
      exact prefix_close_false_cases (Or.inl hthead)
    | cons e y' =>
      have he : e ∈ c0 := by rw [hxy, hy]; simp
      simp only [List.cons_append]
      exact isPrefixOf_head_ne _ _ (hc0 e he)

theorem goodSuffix_paragraphJoin : ∀ (cs : List (List Char)),
    (∀ l ∈ cs, ∀ c ∈ l, c ≠ '<') →
    goodSuffix (joinSep "\n\n".data (cs.map wrapChunk)) = true := by
  intro cs
  induction cs with
  | nil => intro _; rfl
  | cons c0 cs' ih =>
    intro h
    have hc0 : ∀ c ∈ c0, c ≠ '<' := h c0 (by simp)
    cases cs' with
    | nil =>
      rw [show joinSep "\n\n".data ((c0 :: []).map wrapChunk) = wrapChunk c0 ++ [] by
        simp [joinSep]]
      refine goodSuffix_wrapChunk_append c0 [] hc0 rfl ?_
      intro e he
      simp at he
    | cons a b =>
      have hr : goodSuffix (joinSep "\n\n".data ((a :: b).map wrapChunk)) = true :=
        ih (fun l hl => h l (by simp [hl]))
      have hclose := joinSep_wrap_noClose (a :: b) (fun l hl => h l (by simp [hl]))
      have htail : goodSuffix
          ("\n\n".data ++ joinSep "\n\n".data ((a :: b).map wrapChunk)) = true := by
        rw [show ("\n\n".data : List Char) = ['\n', '\n'] by decide]
        simp only [List.cons_append, List.nil_append]
        refine goodSuffix_cons_intro (fun hc => absurd hc (by decide)) (fun _ => ?_) ?_
        · refine prefix_close_false_cases (Or.inl ?_)
          intro e he
          have h9 : '\n' = e := by simpa using he
          subst h9
          decide
        · exact goodSuffix_cons_intro (fun hc => absurd hc (by decide)) (fun _ => hclose) hr
      rw [show joinSep "\n\n".data ((c0 :: a :: b).map wrapChunk) =
          wrapChunk c0 ++ ("\n\n".data ++ joinSep "\n\n".data ((a :: b).map wrapChunk)) by
        simp [joinSep]]
      refine goodSuffix_wrapChunk_append c0 _ hc0 htail ?_
      intro e he
      rw [show ("\n\n".data : List Char) = ['\n', '\n'] by decide] at he
      have h9 : '\n' = e := by simpa using he
      subst h9
      decide

theorem mem_splitOnSub {pat : List Char} : ∀ (fuel : Nat) (s l : List Char),
    l ∈ splitOnSub pat fuel s → ∀ c ∈ l, c ∈ s := by
  intro fuel
  induction fuel with
  | zero =>
    intro s l hl c hc
    simp only [splitOnSub, List.mem_singleton] at hl
    subst hl
    exact hc
  | succ f ih =>
    intro s l hl c hc
    simp only [splitOnSub] at hl
    cases hsp : splitAtSubstr pat s with
    | none =>
      rw [hsp] at hl
      simp only [List.mem_singleton] at hl
      subst hl
      exact hc
    | some ab =>
      obtain ⟨a, b⟩ := ab
      rw [hsp] at hl
      simp only [List.mem_cons] at hl
      have hdecomp := splitAtSubstr_some hsp
      rcases hl with rfl | hl
      · rw [hdecomp]; simp [hc]
      · have hcb := ih b l hl c hc
        rw [hdecomp]; simp [hcb]

theorem nlClose_not_prefix_of_good {t : List Char} (hg : goodSuffix t = true) :
    "\n</p>".data.isPrefixOf t = false := by
  cases t with
  | nil => decide
  | cons c t' =>
    rw [show ("\n</p>".data : List Char) = '\n' :: "</p>".data by decide]
    by_cases hc : c = '\n'
    · subst hc
      have hnp := goodSuffix_nl hg
      simp [List.isPrefixOf, hnp]
    · exact isPrefixOf_head_ne _ _ hc

theorem cleanup_nl_id {O : List Char} (hg : goodSuffix O = true) :
    pyReplace "\n</p>".data "</p>".data O = O :=
  replaceAllL_id _ (hasSubstr_nlClose_false hg)

/-- Core of C6 and C9: on no-markdown text, every pass before the paragraph
pass is the identity, and every cleanup substitution after it is the identity,
so the converter coincides with the paragraph pass. -/
theorem md_to_htmlL_noMd {s : List Char} (h : noMd s = true) :
    md_to_htmlL s = paragraphPass s := by
  have hchunks : ∀ l ∈ splitOnSub "\n\n".data s.length s, ∀ c ∈ l, c ≠ '<' :=
    fun l hl c hc => (noMd_mem h c (mem_splitOnSub s.length s l hl c hc)).2.2.2.2
  have hgood : goodSuffix (paragraphPass s) = true := by
    unfold paragraphPass
    exact goodSuffix_paragraphJoin _ hchunks
  unfold md_to_htmlL
  dsimp only
  rw [h1Pass_id h, metaPass_id h, h2Pass_id h, h3Pass_id h, hrPass_id h]
  rw [scanP_id tryCodeBlock _ s (fun t ht => tryCodeBlock_none_noMd (noMd_suffix ht h))]
  rw [scanP_id tryInlineCode _ s (fun t ht => tryInlineCode_none_noMd (noMd_suffix ht h))]
  rw [scanP_id tryBold _ s (fun t ht => tryBold_none_noMd (noMd_suffix ht h))]
  rw [scanP_id tryItalic _ s (fun t ht => tryItalic_none_noMd (noMd_suffix ht h))]
  rw [scanP_id tryImage _ s (fun t ht => tryImage_none_noMd (noMd_suffix ht h))]
  rw [scanP_id tryTable _ s (fun t ht => tryTable_none_noMd (noMd_suffix ht h))]
  rw [scanA_id tryUlBlock _ true s (fun t ht => tryUlBlock_none_noMd (noMd_suffix ht h))]
  rw [scanA_id tryOlBlock _ true s (fun t ht => tryOlBlock_none_noMd (noMd_suffix ht h))]
  rw [cleanup_nl_id hgood]
  rw [scanP_id tryEmptyP _ _ (fun t ht => tryEmptyP_none_of_good (goodSuffix_suffix ht hgood))]
  rw [scanP_id tryPOpenBefore _ _
    (fun t ht => tryPOpenBefore_none_of_good (goodSuffix_suffix ht hgood))]
  rw [scanP_id tryCloseP _ _ (fun t ht => tryCloseP_none_of_good (goodSuffix_suffix ht hgood))]

/-! ### Claim C6: inputs with no markdown syntax -/

/-- C6: for every input with no markdown-trigger syntax (`noMd`), no pass
other than the paragraph pass modifies the text — the converter's output is
exactly the paragraph pass — and that pass wraps every chunk with non-blank
content in exactly one paragraph element. -/
theorem C6_theorem {s : List Char} (h : noMd s = true) :
    md_to_htmlL s = paragraphPass s ∧
    ∀ p ∈ splitOnSub "\n\n".data s.length s,
      pyStrip p ≠ [] → wrapChunk p = "<p>".data ++ pyStrip p ++ "</p>".data := by
  refine ⟨md_to_htmlL_noMd h, ?_⟩
  intro p hp hne
  have hlt : (pyStrip p).head? ≠ some '<' := by
    intro hh
    cases hps : pyStrip p with
    | nil => rw [hps] at hh; simp at hh
    | cons x xs =>
      rw [hps] at hh
      have hx : x = '<' := by simpa using hh
      have hmem : x ∈ p := pyStrip_mem (by rw [hps]; simp)
      exact (noMd_mem h x (mem_splitOnSub s.length s p hp x hmem)).2.2.2.2 hx
  unfold wrapChunk
  dsimp only
  rw [if_pos ⟨hne, hlt⟩]

/-- Witness for C6 at the concrete input `hello\n\nworld`. -/
theorem C6_witness :
    noMd "hello\n\nworld".data = true ∧
    md_to_htmlL "hello\n\nworld".data = paragraphPass "hello\n\nworld".data ∧
    (∀ p ∈ splitOnSub "\n\n".data "hello\n\nworld".data.length "hello\n\nworld".data,
      pyStrip p ≠ [] → wrapChunk p = "<p>".data ++ pyStrip p ++ "</p>".data) :=
  ⟨by decide, (C6_theorem (by decide)).1, (C6_theorem (by decide)).2⟩

/-! ### Claim C9: cleanup invariants (counterexample part) -/

/-- C9 counterexample: the claim says the final output never contains an empty
paragraph element.  Each cleanup substitution is a single left-to-right sweep,
so a replacement can create a new match that survives: on input
`<p> <p> </p> </p>` the inner empty paragraph is removed and the output
`<p>  </p>` is itself an empty paragraph element (and indeed still matches the
empty-paragraph pattern). -/
theorem C9_counterexample :
    md_to_html "<p> <p> </p> </p>" = "<p>  </p>" ∧
    tryEmptyP (md_to_htmlL "<p> <p> </p> </p>".data) ≠ none := by
  constructor
  · decide
  · decide

/-- C9 (amended): the cleanup substitutions are single sweeps, so in general a
replacement can leave a surviving violation (see the counterexample above);
but for every input with no markdown-trigger syntax, the final output does
satisfy all four cleanup invariants: no suffix of it starts with a stray
newline before a paragraph close, an empty paragraph, a paragraph open before
a block element, or a stray paragraph close after a block element. -/
theorem C9_amended {s : List Char} (h : noMd s = true) :
    ∀ t, t <:+ md_to_htmlL s →
      "\n</p>".data.isPrefixOf t = false ∧
      tryEmptyP t = none ∧
      tryPOpenBefore t = none ∧
      tryCloseP t = none := by
  intro t ht
  have hgood : goodSuffix (md_to_htmlL s) = true := by
    rw [md_to_htmlL_noMd h]
    unfold paragraphPass
    exact goodSuffix_paragraphJoin _
      (fun l hl c hc => (noMd_mem h c (mem_splitOnSub s.length s l hl c hc)).2.2.2.2)
  have hg := goodSuffix_suffix ht hgood
  exact ⟨nlClose_not_prefix_of_good hg, tryEmptyP_none_of_good hg,
    tryPOpenBefore_none_of_good hg, tryCloseP_none_of_good hg⟩

/-- Witness for C9 at the concrete input `hi\n\nthere`, taking the whole
output as the suffix. -/
theorem C9_witness :
    "\n</p>".data.isPrefixOf (md_to_htmlL "hi\n\nthere".data) = false ∧
    tryEmptyP (md_to_htmlL "hi\n\nthere".data) = none ∧
    tryPOpenBefore (md_to_htmlL "hi\n\nthere".data) = none ∧
    tryCloseP (md_to_htmlL "hi\n\nthere".data) = none :=
  C9_amended (by decide) (md_to_htmlL "hi\n\nthere".data) (List.suffix_refl _)

/-! ### Claim C10: injection positions of the metadata block -/

/-- C10: the metadata/abstract block is injected exactly at occurrences of a
level-1 heading close tag immediately followed by a blank line: when the
pattern `</h1>\n\n` does not occur the injection step is the identity; a
heading at the end of input or followed directly by a text line is converted
to a heading element with nothing injected after it, while a heading followed
by a blank line does receive the injection. -/
theorem C10_theorem :
    (∀ s : List Char, hasSubstrL "</h1>\n\n".data s = false →
      pyReplace "</h1>\n\n".data metaBlock s = s) ∧
    md_to_html "# Title" = "<h1>Title</h1>" ∧
    md_to_html "# Title\ntext" = "<h1>Title</h1>\ntext" ∧
    hasSubstrL "<div".data (md_to_htmlL "# Title\ntext".data) = false ∧
    md_to_html "# Title\n\nx" = String.mk ("<h1>Title".data ++ metaBlock ++ "x".data) := by
  refine ⟨fun s h => replaceAllL_id _ h, ?_, ?_, ?_, ?_⟩
  · decide
  · decide
  · decide
  · decide

/-- C10 witness: the identity part of C10 applied at a concrete heading line
with no blank line after it. -/
theorem C10_witness :
    pyReplace "</h1>\n\n".data metaBlock "<h1>Title</h1>\ntext".data = "<h1>Title</h1>\ntext".data :=
  C10_theorem.1 "<h1>Title</h1>\ntext".data (by decide)

end GenPdf
